import Mathlib

/-!
Verification of the completion aggregator core
(`completion_aggregator/core.py`, `utils.py`, `models.py`, `aggregator.py`).

The embedding models:
* block keys as naturals, block types as strings;
* datetimes as naturals, with `OLD_DATETIME` as 0 (the minimal time);
* float completion values as rationals;
* the updater's `self.aggregators` dict as an association list with
  shadowing on the left (Python dict assignment overwrites the entry);
* the recursive `update_for_block` walk as a state-passing recursion over
  an inductive block tree (`self.course_blocks` restricted to the root's
  descendants; the Python recursion terminates only on such finite trees).

Option-valued lookups are dispatched through small named helper functions
(rather than inline `match` expressions) so that concrete runs can be
evaluated by `simp`.
-/

namespace CompletionAggregator

/-- Model of `XBlockCompletionMode`: the three completion modes dispatched on by
`AggregationUpdater.update_for_block`.  A `PluginMissingError` is mapped to
`excluded` by the source, so no separate constructor is needed. -/
inductive CMode where
  | excluded
  | completable
  | aggregator
deriving DecidableEq, Repr

/-- Model of `BlockCompletion` as seen by the updater: a completion value and its
`modified` timestamp. -/
structure Completion where
  completion : ℚ
  modified : ℕ
deriving DecidableEq, Repr

/-- Model of the `CompletionStats` namedtuple from `core.py`. -/
structure CompletionStats where
  earned : ℚ
  possible : ℚ
  lastModified : ℕ
deriving DecidableEq, Repr

/-- Model of `OLD_DATETIME` (1900-01-01): the minimal timestamp. -/
def oldDatetime : ℕ := 0

/-- An `Aggregator` model row, restricted to the fields the updater touches.
`modified` is the row's own write time (`record_modified` in the spec);
`lastModified` is the most recent leaf modification folded into the row. -/
structure AggRow where
  blockKey : ℕ
  aggregationName : String
  earned : ℚ
  possible : ℚ
  percent : ℚ
  lastModified : ℕ
  modified : ℕ
deriving DecidableEq, Repr

/-- The course structure below a block: a key, a block type, and children.
The updater's recursion follows `course_blocks[block].children` edges. -/
inductive BTree where
  | node (key : ℕ) (blockType : String) (children : List BTree)

/-- The ambient data the updater reads: completion-mode dispatch per block
type, the registered-aggregator allow-list
(`settings.COMPLETION_AGGREGATOR_BLOCK_TYPES`), the user's
`block_completions`, and the current wall-clock time. -/
structure Env where
  mode : String → CMode
  registered : String → Bool
  completions : ℕ → Option Completion
  now : ℕ

/-- The affected-aggregator set: either a `BagOfHolding` (contains
everything) or a finite set of block keys. -/
inductive AffectedSet where
  | bag
  | fin (blocks : List ℕ)
deriving DecidableEq, Repr

/-- Membership test (`block not in affected_aggregators` in the source). -/
def AffectedSet.mem : AffectedSet → ℕ → Bool
  | .bag, _ => true
  | .fin s, k => s.contains k

/-- Association-list lookup, modelling Python dict `.get`. -/
def alookup {α : Type} : List (ℕ × α) → ℕ → Option α
  | [], _ => none
  | (k', v) :: rest, k => if k' = k then some v else alookup rest k

/-- Model of the `CourseBlocksEntry` namedtuple: children and enclosing aggregators of a
block in the simplified course structure. -/
structure CourseBlocksEntry where
  children : List ℕ
  aggregators : List ℕ
deriving DecidableEq, Repr

/-- One step of the `get_affected_aggregators` loop: a missing course-block
entry turns the affected set into a `BagOfHolding`; otherwise the entry's
`aggregators` are unioned into the accumulator and the loop continues. -/
def affectedStep (entry : Option CourseBlocksEntry)
    (cont : List ℕ → AffectedSet) (acc : List ℕ) : AffectedSet :=
  match entry with
  | none => AffectedSet.bag
  | some e => cont (acc.union e.aggregators)

/-- The loop of `AggregationUpdater.get_affected_aggregators`. -/
def getAffectedAggregatorsLoop (cb : List (ℕ × CourseBlocksEntry)) :
    List ℕ → List ℕ → AffectedSet
  | [], acc => AffectedSet.fin acc
  | b :: rest, acc =>
    affectedStep (alookup cb b) (getAffectedAggregatorsLoop cb rest) acc

/-- Model of `AggregationUpdater.get_affected_aggregators`: an empty changed-block
set means a `BagOfHolding` (recompute everything). -/
def getAffectedAggregators (cb : List (ℕ × CourseBlocksEntry))
    (changed : List ℕ) : AffectedSet :=
  match changed with
  | [] => AffectedSet.bag
  | _ :: _ => getAffectedAggregatorsLoop cb changed []

/-- The updater's mutable state: `self.aggregators` (keyed rows, most recent
binding first) and `self.updated_aggregators` (rows staged for upsert). -/
structure UState where
  aggs : List (ℕ × AggRow)
  updated : List AggRow
deriving DecidableEq, Repr

/-- The row-dependent part of `_aggregator_needs_update`: update when there
is no existing row, or `force` is set, or the existing row's
`last_modified` is older than the computed one. -/
def needsUpdateForRow (force : Bool) (modified : ℕ) : Option AggRow → Bool
  | none => true
  | some agg => force || decide (agg.lastModified < modified)

/-- Model of `AggregationUpdater._aggregator_needs_update`. -/
def aggregatorNeedsUpdate (env : Env) (aggs : List (ℕ × AggRow)) (k : ℕ)
    (ty : String) (modified : ℕ) (force : Bool) : Bool :=
  if env.registered ty then needsUpdateForRow force modified (alookup aggs k)
  else false

/-- The incremental short-circuit of `update_for_aggregator`: when the block
is not affected and a stored row exists, its stats are returned directly. -/
def shortCircuit (memAffected : Bool) (row : Option AggRow) :
    Option CompletionStats :=
  match memAffected, row with
  | false, some obj => some ⟨obj.earned, obj.possible, obj.lastModified⟩
  | _, _ => none

/-- Model of `update_for_completable`: the recorded completion's value and modified
time, or `(0, 1, OLD_DATETIME)` when the leaf was never touched.  The
`possible` contribution is always 1. -/
def completableStats : Option Completion → CompletionStats
  | some c => ⟨c.completion, 1, c.modified⟩
  | none => ⟨0, 1, oldDatetime⟩

/-- The staged row written by `update_for_aggregator`: a fresh `Aggregator`
when none exists, otherwise the existing row with its aggregation fields
overwritten (and its `modified` write-time bumped to now). -/
def refreshedRow (k : ℕ) (ty : String) (total : CompletionStats)
    (percent : ℚ) (now : ℕ) : Option AggRow → AggRow
  | none => ⟨k, ty, total.earned, total.possible, percent, total.lastModified, now⟩
  | some old =>
    { old with
      earned := total.earned
      possible := total.possible
      percent := percent
      lastModified := total.lastModified
      modified := now }

mutual

/-- Model of `AggregationUpdater.update_for_block` / `update_for_aggregator` /
`update_for_completable` / `update_for_excluded`, with the updater's
mutable state passed explicitly.  The completion-mode dispatch is the
if/elif chain of `update_for_block`. -/
def updateForBlock (env : Env) (affected : AffectedSet) (force : Bool) :
    BTree → UState → CompletionStats × UState
  | BTree.node k ty cs, st =>
    if env.mode ty = CMode.excluded then (⟨0, 0, oldDatetime⟩, st)
    else if env.mode ty = CMode.completable then
      (completableStats (env.completions k), st)
    else
      (shortCircuit (affected.mem k) (alookup st.aggs k)).elim
        (let res := updateChildren env affected force cs ⟨0, 0, oldDatetime⟩ st
         let total := res.1
         let st1 := res.2
         if aggregatorNeedsUpdate env st1.aggs k ty total.lastModified force then
           let percent : ℚ :=
             if total.possible = 0 then 1 else total.earned / total.possible
           let row := refreshedRow k ty total percent env.now (alookup st1.aggs k)
           (total, ⟨(k, row) :: st1.aggs, st1.updated ++ [row]⟩)
         else (total, st1))
        (fun s => (s, st))

/-- The `for child in ... children` loop of `update_for_aggregator`:
accumulates earned/possible sums and the max of last-modified times. -/
def updateChildren (env : Env) (affected : AffectedSet) (force : Bool) :
    List BTree → CompletionStats → UState → CompletionStats × UState
  | [], acc, st => (acc, st)
  | c :: rest, acc, st =>
    let r := updateForBlock env affected force c st
    updateChildren env affected force rest
      ⟨acc.earned + r.1.earned, acc.possible + r.1.possible,
        max acc.lastModified r.1.lastModified⟩ r.2

end

/-- Model of `AggregationUpdater.calculate_updated_aggregators`: compute the affected
set from the changed blocks, then run the recursive update from the root,
starting from the loaded rows and an empty staging list. -/
def calculateUpdatedAggregators (env : Env) (cb : List (ℕ × CourseBlocksEntry))
    (root : BTree) (rows : List (ℕ × AggRow)) (changed : List ℕ)
    (force : Bool) : CompletionStats × UState :=
  updateForBlock env (getAffectedAggregators cb changed) force root ⟨rows, []⟩

mutual

/-- All block keys in a tree (root first, then descendants). -/
def BTree.keys : BTree → List ℕ
  | .node k _ cs => k :: keysList cs

/-- All block keys in a forest. -/
def keysList : List BTree → List ℕ
  | [] => []
  | c :: rest => c.keys ++ keysList rest

end

mutual

/-- All (key, block type) pairs in a tree. -/
def BTree.keyTypes : BTree → List (ℕ × String)
  | .node k ty cs => (k, ty) :: keyTypesList cs

/-- All (key, block type) pairs in a forest. -/
def keyTypesList : List BTree → List (ℕ × String)
  | [] => []
  | c :: rest => c.keyTypes ++ keyTypesList rest

end

mutual

/-- The spec's recursive evaluation, as a pure function of the loaded data:
EXCLUDED blocks contribute `(0, 0, epoch_min)`, COMPLETABLE leaves their
recorded completion (or `(0, 1, epoch_min)`), and containers either return
their stored row's values (when unaffected and present) or the sums/max of
their children's evaluations. -/
def statsOf (env : Env) (affected : AffectedSet) (rows : List (ℕ × AggRow)) :
    BTree → CompletionStats
  | BTree.node k ty cs =>
    if env.mode ty = CMode.excluded then ⟨0, 0, oldDatetime⟩
    else if env.mode ty = CMode.completable then
      completableStats (env.completions k)
    else
      (shortCircuit (affected.mem k) (alookup rows k)).elim
        (childrenStats env affected rows cs) (fun s => s)

/-- Sums of children's evaluated earned/possible and max of last-modified
(the spec's container rule). -/
def childrenStats (env : Env) (affected : AffectedSet)
    (rows : List (ℕ × AggRow)) : List BTree → CompletionStats
  | [] => ⟨0, 0, oldDatetime⟩
  | c :: rest =>
    let s := statsOf env affected rows c
    let r := childrenStats env affected rows rest
    ⟨s.earned + r.earned, s.possible + r.possible,
      max s.lastModified r.lastModified⟩

end

mutual

/-- Self-consistency of a stored-row map with the course tree: at every
container reached by the recursion, either the incremental short-circuit
applies, or the children are consistent and (for registered types) the
stored row is present and at least as new as the recomputed value.  A
consistent map is exactly one on which a `force=false` run stages
nothing. -/
def Consistent (env : Env) (affected : AffectedSet)
    (rows : List (ℕ × AggRow)) : BTree → Prop
  | BTree.node k ty cs =>
    env.mode ty = CMode.aggregator →
      ((affected.mem k = false ∧ (alookup rows k).isSome) ∨
       (ConsistentList env affected rows cs ∧
        (env.registered ty = true →
          ∃ agg, alookup rows k = some agg ∧
            ¬agg.lastModified < (childrenStats env affected rows cs).lastModified)))

/-- Pointwise consistency over a forest. -/
def ConsistentList (env : Env) (affected : AffectedSet)
    (rows : List (ℕ × AggRow)) : List BTree → Prop
  | [] => True
  | c :: rest =>
    Consistent env affected rows c ∧ ConsistentList env affected rows rest

end


/-- Well-formedness of a row map: each row records the key it is stored
under (`self.aggregators` maps `aggregator.block_key` to the row). -/
def RowsWF (rows : List (ℕ × AggRow)) : Prop :=
  ∀ k r, alookup rows k = some r → r.blockKey = k

/-- Concrete example environment used by several witnesses: block types
`course` and `chapter` are registered aggregators, `html` is completable,
anything else is excluded. -/
def envEx : Env where
  mode := fun ty =>
    if ty = "html" then CMode.completable
    else if ty = "course" ∨ ty = "chapter" then CMode.aggregator
    else CMode.excluded
  registered := fun ty => ty = "course" ∨ ty = "chapter"
  completions := fun k => if k = 3 then some ⟨1, 5⟩ else none
  now := 100

/-- The tree `course → (chapterA → leaf3, leaf4; chapterB → leaf5, leaf6)`
of the spec's convergence example. -/
def treeEx : BTree :=
  BTree.node 0 "course"
    [BTree.node 1 "chapter" [BTree.node 3 "html" [], BTree.node 4 "html" []],
     BTree.node 2 "chapter" [BTree.node 5 "html" [], BTree.node 6 "html" []]]

/-- The simplified course structure matching `treeEx`, with each block
annotated by its enclosing aggregators. -/
def cbEx : List (ℕ × CourseBlocksEntry) :=
  [(0, ⟨[1, 2], []⟩), (1, ⟨[3, 4], [0]⟩), (2, ⟨[5, 6], [0]⟩),
   (3, ⟨[], [1, 0]⟩), (4, ⟨[], [1, 0]⟩), (5, ⟨[], [2, 0]⟩), (6, ⟨[], [2, 0]⟩)]


/-- Example environment for unregistered-aggregator transparency:
`course` (registered) and `other` (unregistered) are aggregators, `html`
is completable; leafA (key 2) has completion 1.0, leafB (key 3) has 0.0. -/
def envC6 : Env where
  mode := fun ty =>
    if ty = "html" then CMode.completable
    else if ty = "course" ∨ ty = "other" then CMode.aggregator
    else CMode.excluded
  registered := fun ty => ty = "course"
  completions := fun k =>
    if k = 2 then some ⟨1, 7⟩ else if k = 3 then some ⟨0, 8⟩ else none
  now := 100

/-- The tree `course(registered) → other(unregistered) → leafA, leafB`. -/
def treeC6 : BTree :=
  BTree.node 0 "course"
    [BTree.node 1 "other" [BTree.node 2 "html" [], BTree.node 3 "html" []]]

/-- Environment for the stored-row bounds counterexample: a lone aggregator
block, no completions. -/
def envC10 : Env where
  mode := fun _ => CMode.aggregator
  registered := fun _ => true
  completions := fun _ => none
  now := 100

/-- A stored row with `earned ≤ possible` but negative `earned`. -/
def rowsC10 : List (ℕ × AggRow) :=
  [(0, ⟨0, "course", -2, -1, 1, 0, 0⟩)]

/-- A `StaleCompletion` model row.  `created` and `modified` are the
`TimeStampedModel` timestamps (`created_at`/`modified_at`); `modified` is
never earlier than `created`. -/
structure StaleCompletionRec where
  username : String
  courseKey : String
  blockKey : Option ℕ
  force : Bool
  resolved : Bool
  created : ℕ
  modified : ℕ
deriving DecidableEq, Repr

/-- The `block_key__in=changed_blocks` filter: a null block key never
matches a SQL `IN` list. -/
def staleBlockMatches (changed : List ℕ) : Option ℕ → Bool
  | some b => changed.contains b
  | none => false

/-- The queryset filter of `resolve_stale_completions`: same username and
course, `modified < start`, and (when the changed set is non-empty) the
block key in the changed set. -/
def staleMatches (user course : String) (changed : List ℕ) (start : ℕ)
    (it : StaleCompletionRec) : Bool :=
  decide (it.username = user) && decide (it.courseKey = course) &&
    decide (it.modified < start) &&
    (changed.isEmpty || staleBlockMatches changed it.blockKey)

/-- Model of `queryset.update(resolved=True)` applied to one row. -/
def resolveOne (user course : String) (changed : List ℕ) (start : ℕ)
    (it : StaleCompletionRec) : StaleCompletionRec :=
  if staleMatches user course changed start it then { it with resolved := true }
  else it

/-- Model of `AggregationUpdater.resolve_stale_completions` over a table of stale
completions. -/
def resolveStaleCompletions (user course : String) (changed : List ℕ)
    (start : ℕ) (items : List StaleCompletionRec) : List StaleCompletionRec :=
  items.map (resolveOne user course changed start)

/-- A stale item created before but re-saved after the captured start time
5: `created = 0`, `modified = 10`. -/
def itemC7 : StaleCompletionRec := ⟨"u", "c", some 1, false, false, 0, 10⟩

/-- Model of `MAX_KEYS_PER_TASK` from `aggregator.py`. -/
def MAX_KEYS_PER_TASK : ℕ := 16

/-- The per-enrollment accumulator of `perform_aggregation`: either a
`BagOfHolding` or the set of stale block keys seen so far. -/
inductive GroupBlocks where
  | bag
  | keys (s : List ℕ)
deriving DecidableEq, Repr

/-- One stale row as seen by the batch scheduler, already restricted to one
(username, course) group: its block key (null means whole-course) and its
force flag. -/
structure StaleItem where
  blockKey : Option ℕ
  force : Bool
deriving DecidableEq, Repr

/-- Model of `blocks.add(stale.block_key)` guarded by
`isinstance(blocks, BagOfHolding) or len(blocks) <= MAX_KEYS_PER_TASK`. -/
def addKeyToBlocks : GroupBlocks → Option ℕ → GroupBlocks
  | GroupBlocks.bag, _ => GroupBlocks.bag
  | GroupBlocks.keys s, some k =>
    if s.length ≤ MAX_KEYS_PER_TASK then GroupBlocks.keys (s.insert k)
    else GroupBlocks.keys s
  | GroupBlocks.keys s, none => GroupBlocks.keys s

/-- The loop body of `perform_aggregation` for one stale row: a null block
key replaces the group's set with a `BagOfHolding`, then the key is added
subject to the size guard. -/
def staleStep (b : GroupBlocks) (it : StaleItem) : GroupBlocks :=
  addKeyToBlocks (if it.blockKey = none then GroupBlocks.bag else b) it.blockKey

/-- The collection phase of `perform_aggregation` for one (username,
course_key) group: fold the stale rows into the block set and OR the force
flags (`forced_updates`). -/
def collectGroup (items : List StaleItem) : GroupBlocks × Bool :=
  items.foldl (fun st it => (staleStep st.1 it, st.2 || it.force))
    (GroupBlocks.keys [], false)

/-- The dispatch phase: a `BagOfHolding` or an over-cap set becomes the
empty list (recompute everything), otherwise the collected keys are sent. -/
def dispatchedBlocks : GroupBlocks → List ℕ
  | GroupBlocks.bag => []
  | GroupBlocks.keys s => if MAX_KEYS_PER_TASK < s.length then [] else s

/-- The `(block_keys, force)` pair that `perform_aggregation` passes to the
dispatched `update_aggregators` task for one group. -/
def perGroup (items : List StaleItem) : List ℕ × Bool :=
  (dispatchedBlocks (collectGroup items).1, (collectGroup items).2)

/-- Fold step for the union of the group's non-null block keys. -/
def unionStep (s : List ℕ) : Option ℕ → List ℕ
  | some k => s.insert k
  | none => s

/-- The union of all block keys appearing in a group. -/
def groupUnion (items : List StaleItem) : List ℕ :=
  items.foldl (fun s it => unionStep s it.blockKey) []

/-- Model of `utils.get_percent`: reject `earned > possible`, divide when
`possible > 0`, else report 1.0 by the empty-container convention. -/
def get_percent (earned possible : ℚ) : Except String ℚ :=
  if earned > possible then
    Except.error "Earned cannot be greater than the possible value."
  else if possible > 0 then Except.ok (earned / possible)
  else Except.ok 1

/-- The row written by `update_or_create` in `submit_completion`. -/
def upsertRow (k : ℕ) (aggName : String) (earned possible percent : ℚ)
    (lastModified now : ℕ) : Option AggRow → AggRow
  | none => ⟨k, aggName, earned, possible, percent, lastModified, now⟩
  | some old =>
    { old with
      earned := earned
      possible := possible
      percent := percent
      lastModified := lastModified
      modified := now }

/-- Model of `update_or_create` keyed by the block key. -/
def updateOrCreate (store : List (ℕ × AggRow)) (k : ℕ) (aggName : String)
    (earned possible percent : ℚ) (lastModified now : ℕ) :
    List (ℕ × AggRow) :=
  (k, upsertRow k aggName earned possible percent lastModified now
    (alookup store k)) :: store

/-- Model of `AggregatorManager.submit_completion`: validate, compute the percent
(which raises on `earned > possible`), then upsert.  An error leaves the
store untouched. -/
def submit_completion (store : List (ℕ × AggRow)) (k : ℕ) (aggName : String)
    (earned possible : ℚ) (lastModified now : ℕ) :
    Except String (List (ℕ × AggRow)) :=
  (get_percent earned possible).map
    (fun percent =>
      updateOrCreate store k aggName earned possible percent lastModified now)

mutual

/-- Lemma: `statsOf` only depends on the stored rows at the tree's own keys. -/
theorem statsOf_congr (env : Env) (affected : AffectedSet)
    (rows₁ rows₂ : List (ℕ × AggRow)) (t : BTree)
    (h : ∀ j ∈ t.keys, alookup rows₁ j = alookup rows₂ j) :
    statsOf env affected rows₁ t = statsOf env affected rows₂ t := by
  cases t with
  | node k ty cs =>
    have hk : alookup rows₁ k = alookup rows₂ k := h k (by simp [BTree.keys])
    have hcs := childrenStats_congr env affected rows₁ rows₂ cs
      (fun j hj => h j (by simp [BTree.keys, hj]))
    simp only [statsOf, hk, hcs]

/-- Lemma: `childrenStats` only depends on the stored rows at the forest's keys. -/
theorem childrenStats_congr (env : Env) (affected : AffectedSet)
    (rows₁ rows₂ : List (ℕ × AggRow)) (cs : List BTree)
    (h : ∀ j ∈ keysList cs, alookup rows₁ j = alookup rows₂ j) :
    childrenStats env affected rows₁ cs = childrenStats env affected rows₂ cs := by
  cases cs with
  | nil => rfl
  | cons c rest =>
    have h1 := statsOf_congr env affected rows₁ rows₂ c
      (fun j hj => h j (by simp [keysList, hj]))
    have h2 := childrenStats_congr env affected rows₁ rows₂ rest
      (fun j hj => h j (by simp [keysList, hj]))
    simp only [childrenStats, h1, h2]

end

mutual

/-- Frame property: evaluating a tree changes the row map only at keys of
that tree. -/
theorem updateForBlock_frame (env : Env) (affected : AffectedSet) (g : Bool)
    (t : BTree) (st : UState) (j : ℕ) (hj : j ∉ t.keys) :
    alookup (updateForBlock env affected g t st).2.aggs j = alookup st.aggs j := by
  cases t with
  | node k ty cs =>
    simp only [BTree.keys, List.mem_cons, not_or] at hj
    obtain ⟨hjk, hjcs⟩ := hj
    have hch := updateChildren_frame env affected g cs ⟨0, 0, oldDatetime⟩ st j hjcs
    simp only [updateForBlock]
    split
    · rfl
    · split
      · rfl
      · cases hsc : shortCircuit (affected.mem k) (alookup st.aggs k) with
        | some s => simp [hsc]
        | none =>
          simp only [hsc, Option.elim]
          split
          · simp only [alookup]
            rw [if_neg (fun h => hjk h.symm)]
            exact hch
          · exact hch

/-- Frame property for the children loop. -/
theorem updateChildren_frame (env : Env) (affected : AffectedSet) (g : Bool)
    (cs : List BTree) (acc : CompletionStats) (st : UState) (j : ℕ)
    (hj : j ∉ keysList cs) :
    alookup (updateChildren env affected g cs acc st).2.aggs j =
      alookup st.aggs j := by
  cases cs with
  | nil => rfl
  | cons c rest =>
    simp only [keysList, List.mem_append, not_or] at hj
    simp only [updateChildren]
    rw [updateChildren_frame env affected g rest _ _ j hj.2,
      updateForBlock_frame env affected g c st j hj.1]

end

/-- The staged row keeps the staging key (given map well-formedness). -/
theorem refreshedRow_blockKey (k : ℕ) (ty : String) (total : CompletionStats)
    (pct : ℚ) (now : ℕ) (o : Option AggRow)
    (h : ∀ old, o = some old → old.blockKey = k) :
    (refreshedRow k ty total pct now o).blockKey = k := by
  cases o with
  | none => rfl
  | some old => simpa [refreshedRow] using h old rfl

theorem refreshedRow_earned (k : ℕ) (ty : String) (total : CompletionStats)
    (pct : ℚ) (now : ℕ) (o : Option AggRow) :
    (refreshedRow k ty total pct now o).earned = total.earned := by
  cases o <;> rfl

theorem refreshedRow_possible (k : ℕ) (ty : String) (total : CompletionStats)
    (pct : ℚ) (now : ℕ) (o : Option AggRow) :
    (refreshedRow k ty total pct now o).possible = total.possible := by
  cases o <;> rfl

theorem refreshedRow_percent (k : ℕ) (ty : String) (total : CompletionStats)
    (pct : ℚ) (now : ℕ) (o : Option AggRow) :
    (refreshedRow k ty total pct now o).percent = pct := by
  cases o <;> rfl

theorem refreshedRow_lastModified (k : ℕ) (ty : String)
    (total : CompletionStats) (pct : ℚ) (now : ℕ) (o : Option AggRow) :
    (refreshedRow k ty total pct now o).lastModified = total.lastModified := by
  cases o <;> rfl
mutual

/-- Evaluating a tree appends staged rows to the staging list; every staged
row belongs to a registered block of the tree and carries the
`earned/possible` percent convention.  Row well-formedness is preserved. -/
theorem updateForBlock_updated (env : Env) (affected : AffectedSet) (g : Bool)
    (t : BTree) (st : UState) (hwf : RowsWF st.aggs) :
    (∃ new, (updateForBlock env affected g t st).2.updated = st.updated ++ new
      ∧ ∀ r ∈ new,
          (∃ ty', (r.blockKey, ty') ∈ t.keyTypes ∧ env.registered ty' = true)
          ∧ r.percent = (if r.possible = 0 then 1 else r.earned / r.possible))
    ∧ RowsWF (updateForBlock env affected g t st).2.aggs := by
  cases t with
  | node k ty cs =>
    simp only [updateForBlock]
    split
    · exact ⟨⟨[], by simp, by simp⟩, hwf⟩
    · split
      · exact ⟨⟨[], by simp, by simp⟩, hwf⟩
      · cases hsc : shortCircuit (affected.mem k) (alookup st.aggs k) with
        | some s => exact ⟨⟨[], by simp [hsc], by simp⟩, hwf⟩
        | none =>
          simp only [hsc, Option.elim]
          obtain ⟨⟨new₁, h₁, hr₁⟩, hwf₁⟩ :=
            updateChildren_updated env affected g cs ⟨0, 0, oldDatetime⟩ st hwf
          split
          · rename_i hneeds
            have hreg : env.registered ty = true := by
              by_contra hregf
              simp [aggregatorNeedsUpdate, Bool.not_eq_true _ ▸ hregf] at hneeds
            have hbk : (refreshedRow k ty
                (updateChildren env affected g cs ⟨0, 0, oldDatetime⟩ st).1
                (if (updateChildren env affected g cs
                      ⟨0, 0, oldDatetime⟩ st).1.possible = 0 then 1
                 else (updateChildren env affected g cs
                      ⟨0, 0, oldDatetime⟩ st).1.earned /
                   (updateChildren env affected g cs
                      ⟨0, 0, oldDatetime⟩ st).1.possible)
                env.now
                (alookup (updateChildren env affected g cs
                  ⟨0, 0, oldDatetime⟩ st).2.aggs k)).blockKey = k :=
              refreshedRow_blockKey _ _ _ _ _ _ (fun old ho => hwf₁ k old ho)
            refine ⟨⟨new₁ ++ [refreshedRow k ty
                (updateChildren env affected g cs ⟨0, 0, oldDatetime⟩ st).1
                (if (updateChildren env affected g cs
                      ⟨0, 0, oldDatetime⟩ st).1.possible = 0 then 1
                 else (updateChildren env affected g cs
                      ⟨0, 0, oldDatetime⟩ st).1.earned /
                   (updateChildren env affected g cs
                      ⟨0, 0, oldDatetime⟩ st).1.possible)
                env.now
                (alookup (updateChildren env affected g cs
                  ⟨0, 0, oldDatetime⟩ st).2.aggs k)],
              by simp [h₁], ?_⟩, ?_⟩
            · intro r hr
              rcases List.mem_append.mp hr with hmem | hmem
              · obtain ⟨⟨ty', hty', hregty'⟩, hpct⟩ := hr₁ r hmem
                exact ⟨⟨ty', by simp [BTree.keyTypes, hty'], hregty'⟩, hpct⟩
              · rcases List.mem_singleton.mp hmem with rfl
                constructor
                · exact ⟨ty, by simp [BTree.keyTypes, hbk], hreg⟩
                · rw [refreshedRow_percent, refreshedRow_possible, refreshedRow_earned]
            · intro j r hj
              simp only [alookup] at hj
              by_cases hkj : k = j
              · subst hkj
                rw [if_pos rfl] at hj
                rw [← Option.some_inj.mp hj]
                exact hbk
              · rw [if_neg hkj] at hj
                exact hwf₁ j r hj
          · refine ⟨⟨new₁, h₁, ?_⟩, hwf₁⟩
            intro r hr
            obtain ⟨⟨ty', hty', hregty'⟩, hpct⟩ := hr₁ r hr
            exact ⟨⟨ty', by simp [BTree.keyTypes, hty'], hregty'⟩, hpct⟩

/-- Staged-row bookkeeping for the children loop. -/
theorem updateChildren_updated (env : Env) (affected : AffectedSet) (g : Bool)
    (cs : List BTree) (acc : CompletionStats) (st : UState)
    (hwf : RowsWF st.aggs) :
    (∃ new, (updateChildren env affected g cs acc st).2.updated = st.updated ++ new
      ∧ ∀ r ∈ new,
          (∃ ty', (r.blockKey, ty') ∈ keyTypesList cs ∧ env.registered ty' = true)
          ∧ r.percent = (if r.possible = 0 then 1 else r.earned / r.possible))
    ∧ RowsWF (updateChildren env affected g cs acc st).2.aggs := by
  cases cs with
  | nil => exact ⟨⟨[], by simp [updateChildren], by simp⟩, hwf⟩
  | cons c rest =>
    obtain ⟨⟨new₁, h₁, hr₁⟩, hwf₁⟩ := updateForBlock_updated env affected g c st hwf
    obtain ⟨⟨new₂, h₂, hr₂⟩, hwf₂⟩ := updateChildren_updated env affected g rest
      ⟨acc.earned + (updateForBlock env affected g c st).1.earned,
        acc.possible + (updateForBlock env affected g c st).1.possible,
        max acc.lastModified (updateForBlock env affected g c st).1.lastModified⟩
      (updateForBlock env affected g c st).2 hwf₁
    refine ⟨⟨new₁ ++ new₂, ?_, ?_⟩, ?_⟩
    · simp only [updateChildren]
      rw [h₂, h₁, List.append_assoc]
    · intro r hr
      rcases List.mem_append.mp hr with hmem | hmem
      · obtain ⟨⟨ty', hty', hregty'⟩, hpct⟩ := hr₁ r hmem
        exact ⟨⟨ty', by simp [keyTypesList, hty'], hregty'⟩, hpct⟩
      · obtain ⟨⟨ty', hty', hregty'⟩, hpct⟩ := hr₂ r hmem
        exact ⟨⟨ty', by simp [keyTypesList, hty'], hregty'⟩, hpct⟩
    · simpa only [updateChildren] using hwf₂

end

/-- Inversion for the short-circuit: it fires exactly for an unaffected
block with a stored row, and returns that row's stats. -/
theorem shortCircuit_eq_some (m : Bool) (o : Option AggRow)
    (s : CompletionStats) (h : shortCircuit m o = some s) :
    m = false ∧ ∃ obj, o = some obj ∧
      s = ⟨obj.earned, obj.possible, obj.lastModified⟩ := by
  cases m with
  | true => simp [shortCircuit] at h
  | false =>
    cases o with
    | none => simp [shortCircuit] at h
    | some obj =>
      simp only [shortCircuit, Option.some_inj] at h
      exact ⟨rfl, obj, rfl, h.symm⟩

/-- The short-circuit misses for an unaffected block exactly when there is
no stored row. -/
theorem shortCircuit_false_none (o : Option AggRow)
    (h : shortCircuit false o = none) : o = none := by
  cases o with
  | none => rfl
  | some obj => simp [shortCircuit] at h

/-- The short-circuit never fires for an affected block. -/
theorem shortCircuit_true (o : Option AggRow) :
    shortCircuit true o = none := by
  cases o <;> rfl

mutual

/-- Lemma: `Consistent` only depends on the stored rows at the tree's own keys. -/
theorem Consistent_congr (env : Env) (affected : AffectedSet)
    (rows₁ rows₂ : List (ℕ × AggRow)) (t : BTree)
    (h : ∀ j ∈ t.keys, alookup rows₁ j = alookup rows₂ j)
    (hc : Consistent env affected rows₁ t) :
    Consistent env affected rows₂ t := by
  cases t with
  | node k ty cs =>
    have hk : alookup rows₁ k = alookup rows₂ k := h k (by simp [BTree.keys])
    have hcs : ∀ j ∈ keysList cs, alookup rows₁ j = alookup rows₂ j :=
      fun j hj => h j (by simp [BTree.keys, hj])
    intro hma
    rcases hc hma with ⟨hmem, hsome⟩ | ⟨hlist, hreg⟩
    · exact Or.inl ⟨hmem, hk ▸ hsome⟩
    · refine Or.inr ⟨ConsistentList_congr env affected rows₁ rows₂ cs hcs hlist, ?_⟩
      intro hr
      obtain ⟨agg, hagg, hlt⟩ := hreg hr
      exact ⟨agg, hk ▸ hagg,
        childrenStats_congr env affected rows₁ rows₂ cs hcs ▸ hlt⟩

/-- Lemma: `ConsistentList` only depends on the stored rows at the forest's keys. -/
theorem ConsistentList_congr (env : Env) (affected : AffectedSet)
    (rows₁ rows₂ : List (ℕ × AggRow)) (cs : List BTree)
    (h : ∀ j ∈ keysList cs, alookup rows₁ j = alookup rows₂ j)
    (hc : ConsistentList env affected rows₁ cs) :
    ConsistentList env affected rows₂ cs := by
  cases cs with
  | nil => trivial
  | cons c rest =>
    obtain ⟨hc1, hc2⟩ := hc
    exact ⟨Consistent_congr env affected rows₁ rows₂ c
        (fun j hj => h j (by simp [keysList, hj])) hc1,
      ConsistentList_congr env affected rows₁ rows₂ rest
        (fun j hj => h j (by simp [keysList, hj])) hc2⟩

end

/-- Unfolding: an aggregator whose short-circuit fires returns the stored
stats and leaves the state untouched. -/
theorem updateForBlock_agg_sc (env : Env) (affected : AffectedSet) (g : Bool)
    (k : ℕ) (ty : String) (cs : List BTree) (st : UState) (s : CompletionStats)
    (hma : env.mode ty = CMode.aggregator)
    (hsc : shortCircuit (affected.mem k) (alookup st.aggs k) = some s) :
    updateForBlock env affected g (BTree.node k ty cs) st = (s, st) := by
  simp [updateForBlock, hma, hsc]

/-- Unfolding: an evaluated aggregator that needs an update returns the
children totals and stages a refreshed row. -/
theorem updateForBlock_agg_staged (env : Env) (affected : AffectedSet)
    (g : Bool) (k : ℕ) (ty : String) (cs : List BTree) (st : UState)
    (u : CompletionStats × UState)
    (hma : env.mode ty = CMode.aggregator)
    (hu : updateChildren env affected g cs ⟨0, 0, oldDatetime⟩ st = u)
    (hsc : shortCircuit (affected.mem k) (alookup st.aggs k) = none)
    (hneeds : aggregatorNeedsUpdate env u.2.aggs k ty u.1.lastModified g = true) :
    updateForBlock env affected g (BTree.node k ty cs) st =
      (u.1,
        ⟨(k, refreshedRow k ty u.1
            (if u.1.possible = 0 then 1 else u.1.earned / u.1.possible)
            env.now (alookup u.2.aggs k)) :: u.2.aggs,
          u.2.updated ++ [refreshedRow k ty u.1
            (if u.1.possible = 0 then 1 else u.1.earned / u.1.possible)
            env.now (alookup u.2.aggs k)]⟩) := by
  subst hu
  simp [updateForBlock, hma, hsc, hneeds]

/-- Unfolding: an evaluated aggregator that needs no update returns the
children totals and leaves the state as the children left it. -/
theorem updateForBlock_agg_unstaged (env : Env) (affected : AffectedSet)
    (g : Bool) (k : ℕ) (ty : String) (cs : List BTree) (st : UState)
    (u : CompletionStats × UState)
    (hma : env.mode ty = CMode.aggregator)
    (hu : updateChildren env affected g cs ⟨0, 0, oldDatetime⟩ st = u)
    (hneeds : aggregatorNeedsUpdate env u.2.aggs k ty u.1.lastModified g = false)
    (hsc : shortCircuit (affected.mem k) (alookup st.aggs k) = none) :
    updateForBlock env affected g (BTree.node k ty cs) st = (u.1, u.2) := by
  subst hu
  simp [updateForBlock, hma, hsc, hneeds]

/-- Unfolding for the spec-side evaluation of an aggregator block. -/
theorem statsOf_agg (env : Env) (affected : AffectedSet)
    (rows : List (ℕ × AggRow)) (k : ℕ) (ty : String) (cs : List BTree)
    (hma : env.mode ty = CMode.aggregator) :
    statsOf env affected rows (BTree.node k ty cs) =
      (shortCircuit (affected.mem k) (alookup rows k)).elim
        (childrenStats env affected rows cs) (fun s => s) := by
  simp [statsOf, hma]

mutual

/-- Central run characterization.  Under distinct block keys and a state
whose rows agree with `rows` on the tree's keys: the run returns the
spec-side evaluation `statsOf`, the final row map is `Consistent` with the
tree, and the spec-side evaluation of the final map is unchanged. -/
theorem updateForBlock_stats (env : Env) (affected : AffectedSet) (g : Bool)
    (rows : List (ℕ × AggRow)) (t : BTree) (st : UState)
    (hnd : t.keys.Nodup)
    (hag : ∀ j ∈ t.keys, alookup st.aggs j = alookup rows j) :
    (updateForBlock env affected g t st).1 = statsOf env affected rows t
    ∧ Consistent env affected (updateForBlock env affected g t st).2.aggs t
    ∧ statsOf env affected (updateForBlock env affected g t st).2.aggs t
        = statsOf env affected rows t := by
  cases t with
  | node k ty cs =>
    cases henv : env.mode ty with
    | excluded =>
      refine ⟨by simp [updateForBlock, statsOf, henv], ?_, ?_⟩
      · intro hma
        rw [henv] at hma
        cases hma
      · simp [updateForBlock, statsOf, henv]
    | completable =>
      refine ⟨by simp [updateForBlock, statsOf, henv], ?_, ?_⟩
      · intro hma
        rw [henv] at hma
        cases hma
      · simp [updateForBlock, statsOf, henv]
    | aggregator =>
      have hndk : k ∉ keysList cs :=
        (List.nodup_cons.mp (by simpa [BTree.keys] using hnd)).1
      have hndcs : (keysList cs).Nodup :=
        (List.nodup_cons.mp (by simpa [BTree.keys] using hnd)).2
      have hagk : alookup st.aggs k = alookup rows k := hag k (by simp [BTree.keys])
      have hagcs : ∀ j ∈ keysList cs, alookup st.aggs j = alookup rows j :=
        fun j hj => hag j (by simp [BTree.keys, hj])
      cases hsc : shortCircuit (affected.mem k) (alookup st.aggs k) with
      | some s =>
        obtain ⟨hmem, obj, hobj, hs⟩ := shortCircuit_eq_some _ _ _ hsc
        rw [updateForBlock_agg_sc env affected g k ty cs st s henv hsc]
        refine ⟨?_, ?_, ?_⟩
        · rw [statsOf_agg env affected rows k ty cs henv, ← hagk, hsc]
          rfl
        · intro _
          exact Or.inl ⟨hmem, by rw [hobj]; rfl⟩
        · rw [statsOf_agg env affected st.aggs k ty cs henv,
            statsOf_agg env affected rows k ty cs henv, ← hagk, hsc]
          rfl
      | none =>
        obtain ⟨IH1, IH2, IH3⟩ :=
          updateChildren_stats env affected g rows cs ⟨0, 0, oldDatetime⟩ st hndcs hagcs
        have hfr := updateChildren_frame env affected g cs ⟨0, 0, oldDatetime⟩ st k hndk
        cases hu : updateChildren env affected g cs ⟨0, 0, oldDatetime⟩ st with
        | mk total st1 =>
          rw [hu] at IH1 IH2 IH3 hfr
          dsimp only at IH1 IH2 IH3 hfr
          have htot : total = childrenStats env affected rows cs := by
            rw [IH1]
            simp [childrenStats, oldDatetime]
          have hscrows : shortCircuit (affected.mem k) (alookup rows k) = none := by
            rw [← hagk]
            exact hsc
          have hstatsrows : statsOf env affected rows (BTree.node k ty cs)
              = childrenStats env affected rows cs := by
            rw [statsOf_agg env affected rows k ty cs henv, hscrows]
            rfl
          cases hneeds : aggregatorNeedsUpdate env st1.aggs k ty total.lastModified g with
          | true =>
            rw [updateForBlock_agg_staged env affected g k ty cs st (total, st1)
              henv hu hsc hneeds]
            dsimp only
            have hagree : ∀ j ∈ keysList cs,
                alookup st1.aggs j =
                  alookup ((k, refreshedRow k ty total
                    (if total.possible = 0 then 1 else total.earned / total.possible)
                    env.now (alookup st1.aggs k)) :: st1.aggs) j := by
              intro j hj
              simp only [alookup]
              rw [if_neg (fun hkj => hndk (by rw [hkj]; exact hj))]
            refine ⟨?_, ?_, ?_⟩
            · rw [hstatsrows]
              exact htot
            · intro _
              refine Or.inr ⟨ConsistentList_congr env affected st1.aggs _ cs hagree IH2, ?_⟩
              intro _
              refine ⟨refreshedRow k ty total
                (if total.possible = 0 then 1 else total.earned / total.possible)
                env.now (alookup st1.aggs k), by simp [alookup], ?_⟩
              rw [← childrenStats_congr env affected st1.aggs _ cs hagree, IH3,
                refreshedRow_lastModified, htot]
              exact lt_irrefl _
            · rw [statsOf_agg env affected _ k ty cs henv, hstatsrows]
              have hlk : alookup ((k, refreshedRow k ty total
                  (if total.possible = 0 then 1 else total.earned / total.possible)
                  env.now (alookup st1.aggs k)) :: st1.aggs) k
                  = some (refreshedRow k ty total
                    (if total.possible = 0 then 1 else total.earned / total.possible)
                    env.now (alookup st1.aggs k)) := by
                simp [alookup]
              rw [hlk]
              cases hmemk : affected.mem k with
              | true =>
                rw [shortCircuit_true]
                rw [← childrenStats_congr env affected st1.aggs _ cs hagree]
                exact IH3
              | false =>
                simp only [shortCircuit, Option.elim]
                rw [refreshedRow_earned, refreshedRow_possible,
                  refreshedRow_lastModified, htot]
          | false =>
            rw [updateForBlock_agg_unstaged env affected g k ty cs st (total, st1)
              henv hu hneeds hsc]
            dsimp only
            refine ⟨?_, ?_, ?_⟩
            · rw [hstatsrows]
              exact htot
            · intro _
              refine Or.inr ⟨IH2, ?_⟩
              intro hreg
              rw [aggregatorNeedsUpdate, if_pos hreg] at hneeds
              cases hlk : alookup st1.aggs k with
              | none =>
                rw [hlk] at hneeds
                simp [needsUpdateForRow] at hneeds
              | some agg =>
                rw [hlk] at hneeds
                simp only [needsUpdateForRow, Bool.or_eq_false_iff,
                  decide_eq_false_iff_not] at hneeds
                refine ⟨agg, rfl, ?_⟩
                rw [IH3, ← htot]
                exact hneeds.2
            · rw [statsOf_agg env affected st1.aggs k ty cs henv, hstatsrows, hfr, hsc]
              exact IH3

/-- Central run characterization for the children loop. -/
theorem updateChildren_stats (env : Env) (affected : AffectedSet) (g : Bool)
    (rows : List (ℕ × AggRow)) (cs : List BTree) (acc : CompletionStats)
    (st : UState)
    (hnd : (keysList cs).Nodup)
    (hag : ∀ j ∈ keysList cs, alookup st.aggs j = alookup rows j) :
    (updateChildren env affected g cs acc st).1 =
      ⟨acc.earned + (childrenStats env affected rows cs).earned,
       acc.possible + (childrenStats env affected rows cs).possible,
       max acc.lastModified (childrenStats env affected rows cs).lastModified⟩
    ∧ ConsistentList env affected (updateChildren env affected g cs acc st).2.aggs cs
    ∧ childrenStats env affected (updateChildren env affected g cs acc st).2.aggs cs
        = childrenStats env affected rows cs := by
  cases cs with
  | nil =>
    refine ⟨by simp [updateChildren, childrenStats, oldDatetime], trivial, rfl⟩
  | cons c rest =>
    have hndparts := List.nodup_append.mp (by simpa [keysList] using hnd)
    have hnd1 : c.keys.Nodup := hndparts.1
    have hnd2 : (keysList rest).Nodup := hndparts.2.1
    have hdisj : c.keys.Disjoint (keysList rest) := hndparts.2.2
    have hag1 : ∀ j ∈ c.keys, alookup st.aggs j = alookup rows j :=
      fun j hj => hag j (by simp [keysList, hj])
    obtain ⟨A1, A2, A3⟩ := updateForBlock_stats env affected g rows c st hnd1 hag1
    have hfrc := fun j (hj : j ∉ c.keys) =>
      updateForBlock_frame env affected g c st j hj
    cases hvc : updateForBlock env affected g c st with
    | mk s st1 =>
      rw [hvc] at A1 A2 A3 hfrc
      dsimp only at A1 A2 A3 hfrc
      have hag2 : ∀ j ∈ keysList rest, alookup st1.aggs j = alookup rows j := by
        intro j hj
        rw [hfrc j (fun hc' => hdisj hc' hj)]
        exact hag j (by simp [keysList, hj])
      obtain ⟨B1, B2, B3⟩ := updateChildren_stats env affected g rows rest
        ⟨acc.earned + s.earned, acc.possible + s.possible,
          max acc.lastModified s.lastModified⟩ st1 hnd2 hag2
      cases hvr : updateChildren env affected g rest
          ⟨acc.earned + s.earned, acc.possible + s.possible,
            max acc.lastModified s.lastModified⟩ st1 with
      | mk total2 st2 =>
        rw [hvr] at B1 B2 B3
        dsimp only at B1 B2 B3
        have hrun : updateChildren env affected g (c :: rest) acc st = (total2, st2) := by
          simp only [updateChildren]
          rw [hvc]
          dsimp only
          exact hvr
        rw [hrun]
        dsimp only
        have hfrr := fun j (hj : j ∉ keysList rest) =>
          updateChildren_frame env affected g rest
            ⟨acc.earned + s.earned, acc.possible + s.possible,
              max acc.lastModified s.lastModified⟩ st1 j hj
        have hagc2 : ∀ j ∈ c.keys, alookup st1.aggs j = alookup st2.aggs j := by
          intro j hj
          have := hfrr j (fun hr => hdisj hj hr)
          rw [hvr] at this
          dsimp only at this
          exact this.symm
        refine ⟨?_, ?_, ?_⟩
        · rw [B1, A1]
          simp [childrenStats, add_assoc, max_assoc]
        · exact ⟨Consistent_congr env affected st1.aggs st2.aggs c hagc2 A2, B2⟩
        · have hc2 : statsOf env affected st2.aggs c = statsOf env affected rows c := by
            rw [← statsOf_congr env affected st1.aggs st2.aggs c hagc2]
            exact A3
          simp [childrenStats, hc2, B3]

end

mutual

/-- On a consistent row map, a `force=false` run is a pure read: it returns
the spec-side evaluation and leaves rows and staging list untouched. -/
theorem updateForBlock_consistent (env : Env) (affected : AffectedSet)
    (rows : List (ℕ × AggRow)) (t : BTree) (u : List AggRow)
    (hc : Consistent env affected rows t) :
    updateForBlock env affected false t ⟨rows, u⟩ =
      (statsOf env affected rows t, ⟨rows, u⟩) := by
  cases t with
  | node k ty cs =>
    cases henv : env.mode ty with
    | excluded => simp [updateForBlock, statsOf, henv]
    | completable => simp [updateForBlock, statsOf, henv]
    | aggregator =>
      cases hsc : shortCircuit (affected.mem k) (alookup rows k) with
      | some s =>
        rw [updateForBlock_agg_sc env affected false k ty cs ⟨rows, u⟩ s henv hsc,
          statsOf_agg env affected rows k ty cs henv, hsc]
        rfl
      | none =>
        rcases hc henv with ⟨hmem, hsome⟩ | ⟨hlist, hreg⟩
        · obtain ⟨obj, hobj⟩ := Option.isSome_iff_exists.mp hsome
          rw [hmem, hobj] at hsc
          simp [shortCircuit] at hsc
        · have hch := updateChildren_consistent env affected rows cs
            ⟨0, 0, oldDatetime⟩ u hlist
          have hneeds : aggregatorNeedsUpdate env rows k ty
              (max oldDatetime
                (childrenStats env affected rows cs).lastModified) false = false := by
            cases hr : env.registered ty with
            | false => simp [aggregatorNeedsUpdate, hr]
            | true =>
              obtain ⟨agg, hagg, hlt⟩ := hreg hr
              simp only [aggregatorNeedsUpdate, hr, if_true, needsUpdateForRow, hagg,
                Bool.false_or, decide_eq_false_iff_not]
              simpa [oldDatetime] using hlt
          rw [updateForBlock_agg_unstaged env affected false k ty cs ⟨rows, u⟩
            (⟨0 + (childrenStats env affected rows cs).earned,
              0 + (childrenStats env affected rows cs).possible,
              max oldDatetime (childrenStats env affected rows cs).lastModified⟩,
              ⟨rows, u⟩) henv hch hneeds hsc]
          rw [statsOf_agg env affected rows k ty cs henv, hsc]
          simp [oldDatetime]

/-- Children-loop version of the consistent no-op run. -/
theorem updateChildren_consistent (env : Env) (affected : AffectedSet)
    (rows : List (ℕ × AggRow)) (cs : List BTree) (acc : CompletionStats)
    (u : List AggRow)
    (hc : ConsistentList env affected rows cs) :
    updateChildren env affected false cs acc ⟨rows, u⟩ =
      (⟨acc.earned + (childrenStats env affected rows cs).earned,
        acc.possible + (childrenStats env affected rows cs).possible,
        max acc.lastModified (childrenStats env affected rows cs).lastModified⟩,
        ⟨rows, u⟩) := by
  cases cs with
  | nil => simp [updateChildren, childrenStats, oldDatetime]
  | cons c rest =>
    obtain ⟨h1, h2⟩ := hc
    have hcrun := updateForBlock_consistent env affected rows c u h1
    simp only [updateChildren]
    rw [hcrun]
    dsimp only
    rw [updateChildren_consistent env affected rows rest _ u h2]
    simp [childrenStats, add_assoc, max_assoc]

end

/-- A member of a forest with distinct keys has distinct keys. -/
theorem keys_nodup_of_mem (c : BTree) (cs : List BTree) (hc : c ∈ cs)
    (hnd : (keysList cs).Nodup) : c.keys.Nodup := by
  induction cs with
  | nil => cases hc
  | cons d rest ih =>
    have hparts := List.nodup_append.mp (by simpa [keysList] using hnd)
    rcases List.mem_cons.mp hc with rfl | hmem
    · exact hparts.1
    · exact ih hmem hparts.2.1

/-- Lemma: `childrenStats` written out as the sums of the children's evaluated
earned/possible and the max of their last-modified values. -/
theorem childrenStats_eq_map (env : Env) (affected : AffectedSet)
    (rows : List (ℕ × AggRow)) (cs : List BTree) :
    childrenStats env affected rows cs =
      ⟨(cs.map fun c => (statsOf env affected rows c).earned).sum,
       (cs.map fun c => (statsOf env affected rows c).possible).sum,
       (cs.map fun c => (statsOf env affected rows c).lastModified).foldr
         max oldDatetime⟩ := by
  induction cs with
  | nil => rfl
  | cons c rest ih => simp [childrenStats, ih]

mutual

/-- Every row staged by a run (beyond those already staged) carries the
`earned/possible` percent convention. -/
theorem updateForBlock_percent (env : Env) (affected : AffectedSet) (g : Bool)
    (t : BTree) (st : UState) (r : AggRow)
    (hr : r ∈ (updateForBlock env affected g t st).2.updated) :
    r ∈ st.updated
    ∨ r.percent = (if r.possible = 0 then 1 else r.earned / r.possible) := by
  cases t with
  | node k ty cs =>
    rw [updateForBlock] at hr
    revert hr
    split
    · exact fun hr => Or.inl hr
    · split
      · exact fun hr => Or.inl hr
      · cases hsc : shortCircuit (affected.mem k) (alookup st.aggs k) with
        | some s => simp only [hsc, Option.elim]; exact fun hr => Or.inl hr
        | none =>
          simp only [hsc, Option.elim]
          split
          · intro hr
            rcases List.mem_append.mp hr with hmem | hmem
            · exact updateChildren_percent env affected g cs ⟨0, 0, oldDatetime⟩ st r hmem
            · rcases List.mem_singleton.mp hmem with rfl
              refine Or.inr ?_
              rw [refreshedRow_percent, refreshedRow_possible, refreshedRow_earned]
          · exact fun hr => updateChildren_percent env affected g cs
              ⟨0, 0, oldDatetime⟩ st r hr

/-- Children-loop version of the staged-percent property. -/
theorem updateChildren_percent (env : Env) (affected : AffectedSet) (g : Bool)
    (cs : List BTree) (acc : CompletionStats) (st : UState) (r : AggRow)
    (hr : r ∈ (updateChildren env affected g cs acc st).2.updated) :
    r ∈ st.updated
    ∨ r.percent = (if r.possible = 0 then 1 else r.earned / r.possible) := by
  cases cs with
  | nil => exact Or.inl hr
  | cons c rest =>
    rw [updateChildren] at hr
    rcases updateChildren_percent env affected g rest _ _ r hr with hmem | hpct
    · exact updateForBlock_percent env affected g c st r hmem
    · exact Or.inr hpct

end



mutual

/-- The keys of a tree are the first components of its key/type pairs. -/
theorem keys_eq_keyTypes_map (t : BTree) :
    t.keys = t.keyTypes.map Prod.fst := by
  cases t with
  | node k ty cs =>
    simp [BTree.keys, BTree.keyTypes, keysList_eq_keyTypesList_map cs]

/-- Forest version of `keys_eq_keyTypes_map`. -/
theorem keysList_eq_keyTypesList_map (cs : List BTree) :
    keysList cs = (keyTypesList cs).map Prod.fst := by
  cases cs with
  | nil => rfl
  | cons c rest =>
    simp [keysList, keyTypesList, keys_eq_keyTypes_map c,
      keysList_eq_keyTypesList_map rest]

end

/-- In a pair list with distinct first components, the first component
determines the second. -/
theorem snd_eq_of_fst_nodup {β : Type} {l : List (ℕ × β)} {a : ℕ} {b c : β}
    (hnd : (l.map Prod.fst).Nodup) (h1 : (a, b) ∈ l) (h2 : (a, c) ∈ l) :
    b = c := by
  induction l with
  | nil => cases h1
  | cons x rest ih =>
    have hx : x.1 ∉ rest.map Prod.fst := (List.nodup_cons.mp hnd).1
    rcases List.mem_cons.mp h1 with rfl | hm1
    · rcases List.mem_cons.mp h2 with h | hm2
      · exact (congrArg Prod.snd h).symm
      · exact absurd (List.mem_map.mpr ⟨(a, c), hm2, rfl⟩) hx
    · rcases List.mem_cons.mp h2 with rfl | hm2
      · exact absurd (List.mem_map.mpr ⟨(a, b), hm1, rfl⟩) hx
      · exact ih (List.nodup_cons.mp hnd).2 hm1 hm2

/-- C9: for every pair of values with earned strictly greater than
possible, computing the percent for an aggregate write raises an error and
the write is rejected (no row stored); in particular `earned = 1.1`,
`possible = 1.0` fails. -/
theorem C9_earned_gt_possible_rejected :
    (∀ (store : List (ℕ × AggRow)) (k : ℕ) (aggName : String)
        (earned possible : ℚ) (lastModified now : ℕ), possible < earned →
      get_percent earned possible =
        Except.error "Earned cannot be greater than the possible value."
      ∧ submit_completion store k aggName earned possible lastModified now =
        Except.error "Earned cannot be greater than the possible value.")
    ∧ submit_completion [] 0 "course" (11 / 10) 1 0 0 =
        Except.error "Earned cannot be greater than the possible value." := by
  have hmain : ∀ (store : List (ℕ × AggRow)) (k : ℕ) (aggName : String)
      (earned possible : ℚ) (lastModified now : ℕ), possible < earned →
      get_percent earned possible =
        Except.error "Earned cannot be greater than the possible value."
      ∧ submit_completion store k aggName earned possible lastModified now =
        Except.error "Earned cannot be greater than the possible value." := by
    intro store k aggName earned possible lastModified now hlt
    have hgp : get_percent earned possible =
        Except.error "Earned cannot be greater than the possible value." := by
      rw [get_percent, if_pos hlt]
    exact ⟨hgp, by rw [submit_completion, hgp]; rfl⟩
  exact ⟨hmain, (hmain [] 0 "course" (11 / 10) 1 0 0 (by norm_num)).2⟩

/-- Witness for C9 at `earned = 1.1`, `possible = 1.0`. -/
theorem C9_witness :
    (1 : ℚ) < 11 / 10
    ∧ get_percent (11 / 10) 1 =
        Except.error "Earned cannot be greater than the possible value."
    ∧ submit_completion [] 0 "course" (11 / 10) 1 0 0 =
        Except.error "Earned cannot be greater than the possible value." := by
  refine ⟨by norm_num, ?_⟩
  have h := C9_earned_gt_possible_rejected.1 [] 0 "course" (11 / 10) 1 0 0
    (by norm_num)
  exact ⟨h.1, h.2⟩

/-- C7 (amended): after an update invocation, exactly those stale rows for
the same user and course whose `modified` timestamp (not their creation
time) precedes the captured start time — and, for a non-empty changed set,
whose block key is in that set — are marked resolved; since a row's
`modified` is never earlier than its creation, a row created at or after
the captured start time is never resolved. -/
theorem C7_stale_resolution_modified (user course : String) (changed : List ℕ)
    (start : ℕ) :
    (∀ items : List StaleCompletionRec,
      resolveStaleCompletions user course changed start items =
        items.map (resolveOne user course changed start))
    ∧ (∀ it : StaleCompletionRec,
        (staleMatches user course changed start it = true →
          resolveOne user course changed start it = { it with resolved := true })
        ∧ (staleMatches user course changed start it = false →
          resolveOne user course changed start it = it))
    ∧ (∀ it : StaleCompletionRec,
        staleMatches user course changed start it = true ↔
          (it.username = user ∧ it.courseKey = course ∧ it.modified < start ∧
            (changed = [] ∨ ∃ b, it.blockKey = some b ∧ b ∈ changed)))
    ∧ (∀ it : StaleCompletionRec, it.created ≤ it.modified →
        start ≤ it.created → resolveOne user course changed start it = it) := by
  refine ⟨fun items => rfl, ?_, ?_, ?_⟩
  · intro it
    exact ⟨fun h => by rw [resolveOne, if_pos h],
      fun h => by rw [resolveOne, if_neg (by rw [h]; exact Bool.false_ne_true)]⟩
  · intro it
    cases hbk : it.blockKey with
    | none =>
      simp [staleMatches, staleBlockMatches, hbk, List.isEmpty_iff, and_assoc]
    | some b =>
      simp [staleMatches, staleBlockMatches, hbk, List.isEmpty_iff, and_assoc]
  · intro it hcm hsc
    have hlt : ¬it.modified < start :=
      fun hm => absurd (lt_of_le_of_lt (hsc.trans hcm) hm) (lt_irrefl _)
    rw [resolveOne, if_neg]
    simp [staleMatches, hlt]

/-- Witness for C7's amended statement: a row modified at time 3 with its
block in the changed set is resolved by a run that starts at time 5. -/
theorem C7_witness :
    staleMatches "u" "c" [1] 5 ⟨"u", "c", some 1, false, false, 3, 3⟩ = true
    ∧ resolveOne "u" "c" [1] 5 ⟨"u", "c", some 1, false, false, 3, 3⟩ =
        ⟨"u", "c", some 1, false, true, 3, 3⟩ := by
  have h := (C7_stale_resolution_modified "u" "c" [1] 5).2.1
    ⟨"u", "c", some 1, false, false, 3, 3⟩
  have hm : staleMatches "u" "c" [1] 5 ⟨"u", "c", some 1, false, false, 3, 3⟩ = true := by
    decide
  exact ⟨hm, h.1 hm⟩

/-- Counterexample to C7 as stated: a stale row for the right user, course
and block whose creation time 0 precedes the start time 5 is nevertheless
not resolved, because the code filters on the `modified` timestamp (here
10). -/
theorem C7_counterexample :
    itemC7.created < 5 ∧ itemC7.username = "u" ∧ itemC7.courseKey = "c"
    ∧ itemC7.blockKey = some 1 ∧ (1 : ℕ) ∈ [1] ∧ itemC7.resolved = false
    ∧ resolveStaleCompletions "u" "c" [1] 5 [itemC7] = [itemC7] := by
  refine ⟨by decide, rfl, rfl, rfl, by decide, rfl, ?_⟩
  decide

/-- C2: every row the updater stages carries
`percent = earned / possible` when the computed possible is positive, and
`percent = 1` when it is zero. -/
theorem C2_stored_percent_convention (env : Env) (affected : AffectedSet)
    (g : Bool) (t : BTree) (rows : List (ℕ × AggRow)) :
    ∀ r ∈ (updateForBlock env affected g t ⟨rows, []⟩).2.updated,
      (0 < r.possible → r.percent = r.earned / r.possible)
      ∧ (r.possible = 0 → r.percent = 1) := by
  intro r hr
  rcases updateForBlock_percent env affected g t ⟨rows, []⟩ r hr with hmem | hpct
  · exact absurd hmem (List.not_mem_nil r)
  · refine ⟨fun hpos => ?_, fun h0 => ?_⟩
    · rw [hpct, if_neg (ne_of_gt hpos)]
    · rw [hpct, if_pos h0]

/-- Witness for C2: the chapterA row staged in the convergence example has
`possible = 2 > 0` and `percent = 1/2 = earned/possible`. -/
theorem C2_witness :
    (⟨1, "chapter", 1, 2, 1 / 2, 5, 100⟩ : AggRow) ∈
      (updateForBlock envEx (AffectedSet.fin [1, 0]) false treeEx
        ⟨[], []⟩).2.updated
    ∧ ((0 < (2 : ℚ) → (1 / 2 : ℚ) = 1 / 2) ∧ ((2 : ℚ) = 0 → (1 / 2 : ℚ) = 1)) := by
  have hmem : (⟨1, "chapter", 1, 2, 1 / 2, 5, 100⟩ : AggRow) ∈
      (updateForBlock envEx (AffectedSet.fin [1, 0]) false treeEx
        ⟨[], []⟩).2.updated := by
    norm_num +decide [updateForBlock, updateChildren, alookup,
      aggregatorNeedsUpdate, needsUpdateForRow, shortCircuit, completableStats,
      refreshedRow, envEx, treeEx, AffectedSet.mem, oldDatetime]
  exact ⟨hmem,
    C2_stored_percent_convention envEx (AffectedSet.fin [1, 0]) false treeEx []
      _ hmem⟩

/-- C1: for every aggregator block in the affected set, the recursive
evaluation returns the sums of its children's evaluated earned and
possible and the max of the children's last-modified times; a completable
leaf with a recorded completion contributes `(value, 1, modified)`, one
without contributes `(0, 1, epoch_min)`, and an excluded block contributes
`(0, 0, epoch_min)`. -/
theorem C1_aggregator_recursion (env : Env) (affected : AffectedSet)
    (g : Bool) (rows : List (ℕ × AggRow)) (k : ℕ) (ty : String)
    (cs : List BTree) (hnd : (BTree.node k ty cs).keys.Nodup) :
    (env.mode ty = CMode.aggregator → affected.mem k = true →
      (updateForBlock env affected g (BTree.node k ty cs) ⟨rows, []⟩).1 =
        ⟨(cs.map fun c =>
            (updateForBlock env affected g c ⟨rows, []⟩).1.earned).sum,
         (cs.map fun c =>
            (updateForBlock env affected g c ⟨rows, []⟩).1.possible).sum,
         (cs.map fun c =>
            (updateForBlock env affected g c ⟨rows, []⟩).1.lastModified).foldr
           max oldDatetime⟩)
    ∧ (∀ c', env.mode ty = CMode.completable → env.completions k = some c' →
        (updateForBlock env affected g (BTree.node k ty cs) ⟨rows, []⟩).1 =
          ⟨c'.completion, 1, c'.modified⟩)
    ∧ (env.mode ty = CMode.completable → env.completions k = none →
        (updateForBlock env affected g (BTree.node k ty cs) ⟨rows, []⟩).1 =
          ⟨0, 1, oldDatetime⟩)
    ∧ (env.mode ty = CMode.excluded →
        (updateForBlock env affected g (BTree.node k ty cs) ⟨rows, []⟩).1 =
          ⟨0, 0, oldDatetime⟩) := by
  refine ⟨?_, ?_, ?_, ?_⟩
  · intro hma hmem
    have hndcs : (keysList cs).Nodup :=
      (List.nodup_cons.mp (by simpa [BTree.keys] using hnd)).2
    have htop := (updateForBlock_stats env affected g rows
      (BTree.node k ty cs) ⟨rows, []⟩ hnd (fun j _ => rfl)).1
    have hnode : statsOf env affected rows (BTree.node k ty cs) =
        childrenStats env affected rows cs := by
      rw [statsOf_agg env affected rows k ty cs hma, hmem, shortCircuit_true]
      rfl
    have hchild : ∀ c ∈ cs, statsOf env affected rows c =
        (updateForBlock env affected g c ⟨rows, []⟩).1 :=
      fun c hcmem => ((updateForBlock_stats env affected g rows c ⟨rows, []⟩
        (keys_nodup_of_mem c cs hcmem hndcs) (fun j _ => rfl)).1).symm
    rw [htop, hnode, childrenStats_eq_map]
    have he : (cs.map fun c => (statsOf env affected rows c).earned)
        = cs.map fun c => (updateForBlock env affected g c ⟨rows, []⟩).1.earned :=
      List.map_congr_left fun c hc => by rw [hchild c hc]
    have hp : (cs.map fun c => (statsOf env affected rows c).possible)
        = cs.map fun c => (updateForBlock env affected g c ⟨rows, []⟩).1.possible :=
      List.map_congr_left fun c hc => by rw [hchild c hc]
    have hl : (cs.map fun c => (statsOf env affected rows c).lastModified)
        = cs.map fun c =>
            (updateForBlock env affected g c ⟨rows, []⟩).1.lastModified :=
      List.map_congr_left fun c hc => by rw [hchild c hc]
    rw [he, hp, hl]
  · intro c' hmc hcomp
    simp [updateForBlock, hmc, hcomp, completableStats]
  · intro hmc hcomp
    simp [updateForBlock, hmc, hcomp, completableStats]
  · intro hme
    simp [updateForBlock, hme]

/-- Witness for C1 on the one-child tree `course → html leaf`. -/
theorem C1_witness :
    (BTree.node 0 "course" [BTree.node 1 "html" []]).keys.Nodup
    ∧ (updateForBlock envEx AffectedSet.bag false
        (BTree.node 0 "course" [BTree.node 1 "html" []]) ⟨[], []⟩).1 =
      ⟨([BTree.node 1 "html" []].map fun c =>
          (updateForBlock envEx AffectedSet.bag false c ⟨[], []⟩).1.earned).sum,
       ([BTree.node 1 "html" []].map fun c =>
          (updateForBlock envEx AffectedSet.bag false c ⟨[], []⟩).1.possible).sum,
       ([BTree.node 1 "html" []].map fun c =>
          (updateForBlock envEx AffectedSet.bag false c
            ⟨[], []⟩).1.lastModified).foldr max oldDatetime⟩ :=
  ⟨by decide,
    (C1_aggregator_recursion envEx AffectedSet.bag false [] 0 "course"
      [BTree.node 1 "html" []] (by decide)).1 (by decide) rfl⟩

/-- C4 (amended): an aggregator outside the affected set with a loaded row
returns that row's stats without recursing or staging anything; in the
convergence example with an existing chapterB row, only chapterA and the
course are staged and chapterB's row is unchanged.  (On a fresh store
chapterB is staged as well — see the counterexample.) -/
theorem C4_short_circuit_frame :
    (∀ (env : Env) (affected : AffectedSet) (g : Bool) (k : ℕ) (ty : String)
        (cs : List BTree) (st : UState) (row : AggRow),
      env.mode ty = CMode.aggregator → affected.mem k = false →
      alookup st.aggs k = some row →
      updateForBlock env affected g (BTree.node k ty cs) st =
        (⟨row.earned, row.possible, row.lastModified⟩, st))
    ∧ ((calculateUpdatedAggregators envEx cbEx treeEx
        [(2, ⟨2, "chapter", 0, 2, 1, 0, 50⟩)] [3] false).2.updated.map
          (fun r => r.blockKey) = [1, 0])
    ∧ alookup (calculateUpdatedAggregators envEx cbEx treeEx
        [(2, ⟨2, "chapter", 0, 2, 1, 0, 50⟩)] [3] false).2.aggs 2 =
      some ⟨2, "chapter", 0, 2, 1, 0, 50⟩ := by
  refine ⟨?_, ?_, ?_⟩
  · intro env affected g k ty cs st row hma hmem hrow
    exact updateForBlock_agg_sc env affected g k ty cs st
      ⟨row.earned, row.possible, row.lastModified⟩ hma
      (by rw [hmem, hrow]; rfl)
  · norm_num +decide [calculateUpdatedAggregators, updateForBlock,
      updateChildren, getAffectedAggregators, getAffectedAggregatorsLoop,
      affectedStep, alookup, aggregatorNeedsUpdate, needsUpdateForRow,
      shortCircuit, completableStats, refreshedRow, envEx, treeEx, cbEx,
      AffectedSet.mem, oldDatetime, List.union, List.insert]
  · norm_num +decide [calculateUpdatedAggregators, updateForBlock,
      updateChildren, getAffectedAggregators, getAffectedAggregatorsLoop,
      affectedStep, alookup, aggregatorNeedsUpdate, needsUpdateForRow,
      shortCircuit, completableStats, refreshedRow, envEx, treeEx, cbEx,
      AffectedSet.mem, oldDatetime, List.union, List.insert]

/-- Witness for C4: the chapterB subtree with its stored row short-circuits
to that row's stats. -/
theorem C4_witness :
    envEx.mode "chapter" = CMode.aggregator
    ∧ (AffectedSet.fin [1, 0]).mem 2 = false
    ∧ alookup [(2, (⟨2, "chapter", 0, 2, 1, 0, 50⟩ : AggRow))] 2 =
        some ⟨2, "chapter", 0, 2, 1, 0, 50⟩
    ∧ updateForBlock envEx (AffectedSet.fin [1, 0]) false
        (BTree.node 2 "chapter" [BTree.node 5 "html" [], BTree.node 6 "html" []])
        ⟨[(2, ⟨2, "chapter", 0, 2, 1, 0, 50⟩)], []⟩ =
      (⟨0, 2, 0⟩, ⟨[(2, ⟨2, "chapter", 0, 2, 1, 0, 50⟩)], []⟩) := by
  refine ⟨by decide, by decide, by decide, ?_⟩
  exact C4_short_circuit_frame.1 envEx (AffectedSet.fin [1, 0]) false 2
    "chapter" [BTree.node 5 "html" [], BTree.node 6 "html" []]
    ⟨[(2, ⟨2, "chapter", 0, 2, 1, 0, 50⟩)], []⟩
    ⟨2, "chapter", 0, 2, 1, 0, 50⟩ (by decide) (by decide) (by decide)

/-- Counterexample to C4's example as stated: on a fresh store, running
with `changedBlocks = {leaf3}` stages chapterB (key 2) as well — the
staged keys are `[1, 2, 0]`, not just chapterA and the course, and a row
for chapterB comes into existence. -/
theorem C4_counterexample :
    ((calculateUpdatedAggregators envEx cbEx treeEx [] [3] false).2.updated.map
      (fun r => r.blockKey) = [1, 2, 0])
    ∧ ¬((calculateUpdatedAggregators envEx cbEx treeEx [] [3]
        false).2.updated.map (fun r => r.blockKey) = [1, 0])
    ∧ (alookup (calculateUpdatedAggregators envEx cbEx treeEx [] [3]
        false).2.aggs 2).isSome = true := by
  have h : ((calculateUpdatedAggregators envEx cbEx treeEx [] [3]
      false).2.updated.map (fun r => r.blockKey) = [1, 2, 0]) := by
    norm_num +decide [calculateUpdatedAggregators, updateForBlock,
      updateChildren, getAffectedAggregators, getAffectedAggregatorsLoop,
      affectedStep, alookup, aggregatorNeedsUpdate, needsUpdateForRow,
      shortCircuit, completableStats, refreshedRow, envEx, treeEx, cbEx,
      AffectedSet.mem, oldDatetime, List.union, List.insert]
  refine ⟨h, by rw [h]; decide, ?_⟩
  norm_num +decide [calculateUpdatedAggregators, updateForBlock,
    updateChildren, getAffectedAggregators, getAffectedAggregatorsLoop,
    affectedStep, alookup, aggregatorNeedsUpdate, needsUpdateForRow,
    shortCircuit, completableStats, refreshedRow, envEx, treeEx, cbEx,
    AffectedSet.mem, oldDatetime, List.union, List.insert]

/-- C6: an aggregator block whose type is not in the registered allow-list
is never staged (regardless of force), but its computed earned/possible
still roll up: in `course(registered) → other(unregistered) → leafA,leafB`
with leafA=1.0 and leafB=0.0, the course aggregate gets earned=1,
possible=2 and no row exists for `other`. -/
theorem C6_unregistered_transparency :
    (∀ (env : Env) (affected : AffectedSet) (g : Bool)
        (rows : List (ℕ × AggRow)) (t : BTree) (k : ℕ) (ty : String),
      RowsWF rows → t.keys.Nodup → (k, ty) ∈ t.keyTypes →
      env.registered ty = false →
      ∀ r ∈ (updateForBlock env affected g t ⟨rows, []⟩).2.updated,
        r.blockKey ≠ k)
    ∧ (calculateUpdatedAggregators envC6 [] treeC6 [] [] false).1 = ⟨1, 2, 8⟩
    ∧ (calculateUpdatedAggregators envC6 [] treeC6 [] [] false).2.updated =
        [⟨0, "course", 1, 2, 1 / 2, 8, 100⟩]
    ∧ alookup (calculateUpdatedAggregators envC6 [] treeC6 [] []
        false).2.aggs 1 = none := by
  refine ⟨?_, ?_, ?_, ?_⟩
  · intro env affected g rows t k ty hwf hnd hkt hreg r hr hrk
    obtain ⟨⟨new, hupd, hprops⟩, _⟩ :=
      updateForBlock_updated env affected g t ⟨rows, []⟩ hwf
    rw [hupd] at hr
    simp only [List.nil_append] at hr
    obtain ⟨⟨ty', hty', hregty'⟩, _⟩ := hprops r hr
    rw [hrk] at hty'
    have hty_eq : ty = ty' := by
      refine snd_eq_of_fst_nodup ?_ hkt hty'
      rw [← keys_eq_keyTypes_map]
      exact hnd
    rw [← hty_eq] at hregty'
    rw [hreg] at hregty'
    cases hregty'
  · norm_num +decide [calculateUpdatedAggregators, updateForBlock,
      updateChildren, getAffectedAggregators, alookup, aggregatorNeedsUpdate,
      needsUpdateForRow, shortCircuit, completableStats, refreshedRow, envC6,
      treeC6, AffectedSet.mem, oldDatetime]
  · norm_num +decide [calculateUpdatedAggregators, updateForBlock,
      updateChildren, getAffectedAggregators, alookup, aggregatorNeedsUpdate,
      needsUpdateForRow, shortCircuit, completableStats, refreshedRow, envC6,
      treeC6, AffectedSet.mem, oldDatetime]
  · norm_num +decide [calculateUpdatedAggregators, updateForBlock,
      updateChildren, getAffectedAggregators, alookup, aggregatorNeedsUpdate,
      needsUpdateForRow, shortCircuit, completableStats, refreshedRow, envC6,
      treeC6, AffectedSet.mem, oldDatetime]

/-- Witness for C6: the staged course row of the transparency example does
not carry the unregistered block's key. -/
theorem C6_witness :
    (⟨0, "course", 1, 2, 1 / 2, 8, 100⟩ : AggRow).blockKey ≠ 1 := by
  have hmem : (⟨0, "course", 1, 2, 1 / 2, 8, 100⟩ : AggRow) ∈
      (updateForBlock envC6 AffectedSet.bag false treeC6 ⟨[], []⟩).2.updated := by
    norm_num +decide [updateForBlock, updateChildren, alookup,
      aggregatorNeedsUpdate, needsUpdateForRow, shortCircuit, completableStats,
      refreshedRow, envC6, treeC6, AffectedSet.mem, oldDatetime]
  exact C6_unregistered_transparency.1 envC6 AffectedSet.bag false [] treeC6 1
    "other" (by simp [RowsWF, alookup]) (by decide) (by decide) (by decide)
    _ hmem

/-- Membership in `List.union`, stated on the applied form. -/
theorem mem_alist_union (l1 l2 : List ℕ) (x : ℕ) :
    x ∈ l1.union l2 ↔ x ∈ l1 ∨ x ∈ l2 := List.mem_union_iff

/-- Lemma: `List.contains` agrees with membership on naturals. -/
theorem contains_iff_mem (s : List ℕ) (j : ℕ) :
    s.contains j = true ↔ j ∈ s := List.elem_iff

/-- Loop invariant for `get_affected_aggregators`: a missing entry yields
the universal bag; otherwise the result is the finite union of the
`aggregators` annotations together with the accumulator. -/
theorem getAffectedAggregatorsLoop_spec (cb : List (ℕ × CourseBlocksEntry)) :
    ∀ (changed acc : List ℕ),
    ((∃ b ∈ changed, alookup cb b = none) →
      getAffectedAggregatorsLoop cb changed acc = AffectedSet.bag)
    ∧ ((∀ b ∈ changed, (alookup cb b).isSome) →
      ∃ s, getAffectedAggregatorsLoop cb changed acc = AffectedSet.fin s ∧
        ∀ j, j ∈ s ↔ (j ∈ acc ∨
          ∃ b ∈ changed, ∃ e, alookup cb b = some e ∧ j ∈ e.aggregators)) := by
  intro changed
  induction changed with
  | nil =>
    intro acc
    constructor
    · rintro ⟨b, hb, _⟩
      cases hb
    · intro _
      exact ⟨acc, rfl, fun j => by simp⟩
  | cons b rest ih =>
    intro acc
    constructor
    · rintro ⟨b', hb', hnone⟩
      rcases List.mem_cons.mp hb' with rfl | hmem
      · simp [getAffectedAggregatorsLoop, hnone, affectedStep]
      · cases halk : alookup cb b with
        | none => simp [getAffectedAggregatorsLoop, halk, affectedStep]
        | some e =>
          simp only [getAffectedAggregatorsLoop, halk, affectedStep]
          exact (ih (acc.union e.aggregators)).1 ⟨b', hmem, hnone⟩
    · intro hall
      obtain ⟨e, he⟩ :=
        Option.isSome_iff_exists.mp (hall b (List.mem_cons_self b rest))
      obtain ⟨s, hs, hmem⟩ := (ih (acc.union e.aggregators)).2
        (fun b' hb' => hall b' (List.mem_cons_of_mem b hb'))
      refine ⟨s,
        by simp only [getAffectedAggregatorsLoop, he, affectedStep]; exact hs,
        ?_⟩
      intro j
      rw [hmem j, mem_alist_union]
      constructor
      · rintro ((hj | hj) | ⟨b', hb', e', he', hj⟩)
        · exact Or.inl hj
        · exact Or.inr ⟨b, List.mem_cons_self b rest, e, he, hj⟩
        · exact Or.inr ⟨b', List.mem_cons_of_mem b hb', e', he', hj⟩
      · rintro (hj | ⟨b', hb', e', he', hj⟩)
        · exact Or.inl (Or.inl hj)
        · rcases List.mem_cons.mp hb' with rfl | hmem'
          · rw [he] at he'
            cases Option.some_inj.mp he'
            exact Or.inl (Or.inr hj)
          · exact Or.inr ⟨b', hmem', e', he', hj⟩

/-- C3: `get_affected_aggregators` returns the union of the changed blocks'
enclosing aggregators when the changed set is non-empty and every changed
block is in the cached structure; an empty changed set or a missing block
yields the universal `BagOfHolding`, whose membership test is always
true. -/
theorem C3_affected_aggregators (cb : List (ℕ × CourseBlocksEntry))
    (changed : List ℕ) :
    (changed = [] → getAffectedAggregators cb changed = AffectedSet.bag)
    ∧ ((∃ b ∈ changed, alookup cb b = none) →
      getAffectedAggregators cb changed = AffectedSet.bag)
    ∧ (∀ j, AffectedSet.bag.mem j = true)
    ∧ ((∀ b ∈ changed, (alookup cb b).isSome) → changed ≠ [] →
      ∀ j, ((getAffectedAggregators cb changed).mem j = true ↔
        ∃ b ∈ changed, ∃ e, alookup cb b = some e ∧ j ∈ e.aggregators)) := by
  refine ⟨?_, ?_, fun j => rfl, ?_⟩
  · rintro rfl
    rfl
  · intro hex
    cases changed with
    | nil => rfl
    | cons b rest =>
      simp only [getAffectedAggregators]
      exact (getAffectedAggregatorsLoop_spec cb (b :: rest) []).1 hex
  · intro hall hne j
    cases changed with
    | nil => exact absurd rfl hne
    | cons b rest =>
      obtain ⟨s, hs, hmem⟩ :=
        (getAffectedAggregatorsLoop_spec cb (b :: rest) []).2 hall
      simp only [getAffectedAggregators, hs, AffectedSet.mem]
      rw [contains_iff_mem, hmem j]
      simp

/-- Witness for C3: empty changed set and an unknown block give the bag; a
known changed leaf marks its enclosing chapter as affected. -/
theorem C3_witness :
    getAffectedAggregators cbEx [] = AffectedSet.bag
    ∧ (getAffectedAggregators cbEx [3]).mem 1 = true
    ∧ getAffectedAggregators cbEx [99] = AffectedSet.bag := by
  refine ⟨(C3_affected_aggregators cbEx []).1 rfl, ?_, ?_⟩
  · exact ((C3_affected_aggregators cbEx [3]).2.2.2 (by decide) (by decide)
      1).mpr ⟨3, by decide, ⟨[], [1, 0]⟩, by decide, by decide⟩
  · exact (C3_affected_aggregators cbEx [99]).2.1 ⟨99, by decide, by decide⟩

mutual

/-- Bounds invariant: with leaf completions in `[0, 1]` and stored rows
satisfying `0 ≤ earned ≤ possible`, every computed stat satisfies
`0 ≤ earned ≤ possible`, the row map keeps the bounds, and every newly
staged row satisfies them. -/
theorem updateForBlock_bounds (env : Env) (affected : AffectedSet) (g : Bool)
    (t : BTree) (st : UState)
    (hcomp : ∀ k c, env.completions k = some c →
      0 ≤ c.completion ∧ c.completion ≤ 1)
    (hrows : ∀ k r, alookup st.aggs k = some r →
      0 ≤ r.earned ∧ r.earned ≤ r.possible) :
    (0 ≤ (updateForBlock env affected g t st).1.earned
      ∧ (updateForBlock env affected g t st).1.earned ≤
        (updateForBlock env affected g t st).1.possible)
    ∧ (∀ k r, alookup (updateForBlock env affected g t st).2.aggs k = some r →
        0 ≤ r.earned ∧ r.earned ≤ r.possible)
    ∧ (∀ r ∈ (updateForBlock env affected g t st).2.updated,
        r ∈ st.updated ∨ (0 ≤ r.earned ∧ r.earned ≤ r.possible)) := by
  cases t with
  | node k ty cs =>
    cases henv : env.mode ty with
    | excluded =>
      refine ⟨by simp [updateForBlock, henv], ?_, ?_⟩
      · simpa [updateForBlock, henv] using hrows
      · simp only [updateForBlock, henv]
        exact fun r hr => Or.inl (by simpa using hr)
    | completable =>
      refine ⟨?_, ?_, ?_⟩
      · cases hc : env.completions k with
        | none => simp [updateForBlock, henv, hc, completableStats]
        | some c =>
          have hb := hcomp k c hc
          simpa [updateForBlock, henv, hc, completableStats] using hb
      · simpa [updateForBlock, henv] using hrows
      · simp only [updateForBlock, henv]
        exact fun r hr => Or.inl (by simpa using hr)
    | aggregator =>
      cases hsc : shortCircuit (affected.mem k) (alookup st.aggs k) with
      | some s =>
        rw [updateForBlock_agg_sc env affected g k ty cs st s henv hsc]
        obtain ⟨hmem, obj, hobj, hs⟩ := shortCircuit_eq_some _ _ _ hsc
        have hb := hrows k obj hobj
        exact ⟨by rw [hs]; exact hb, hrows, fun r hr => Or.inl hr⟩
      | none =>
        obtain ⟨hstats, hrows1, hupd1⟩ := updateChildren_bounds env affected g
          cs ⟨0, 0, oldDatetime⟩ st (by norm_num) hcomp hrows
        cases hu : updateChildren env affected g cs ⟨0, 0, oldDatetime⟩ st with
        | mk total st1 =>
          rw [hu] at hstats hrows1 hupd1
          dsimp only at hstats hrows1 hupd1
          cases hneeds : aggregatorNeedsUpdate env st1.aggs k ty
              total.lastModified g with
          | false =>
            rw [updateForBlock_agg_unstaged env affected g k ty cs st
              (total, st1) henv hu hneeds hsc]
            exact ⟨hstats, hrows1, hupd1⟩
          | true =>
            rw [updateForBlock_agg_staged env affected g k ty cs st
              (total, st1) henv hu hsc hneeds]
            dsimp only
            refine ⟨hstats, ?_, ?_⟩
            · intro k' r hk'
              simp only [alookup] at hk'
              by_cases hkk : k = k'
              · rw [if_pos hkk] at hk'
                cases Option.some_inj.mp hk'
                rw [refreshedRow_earned, refreshedRow_possible]
                exact hstats
              · rw [if_neg hkk] at hk'
                exact hrows1 k' r hk'
            · intro r hr
              rcases List.mem_append.mp hr with hmem | hmem
              · exact hupd1 r hmem
              · rcases List.mem_singleton.mp hmem with rfl
                refine Or.inr ?_
                rw [refreshedRow_earned, refreshedRow_possible]
                exact hstats

/-- Children-loop version of the bounds invariant. -/
theorem updateChildren_bounds (env : Env) (affected : AffectedSet) (g : Bool)
    (cs : List BTree) (acc : CompletionStats) (st : UState)
    (hacc : 0 ≤ acc.earned ∧ acc.earned ≤ acc.possible)
    (hcomp : ∀ k c, env.completions k = some c →
      0 ≤ c.completion ∧ c.completion ≤ 1)
    (hrows : ∀ k r, alookup st.aggs k = some r →
      0 ≤ r.earned ∧ r.earned ≤ r.possible) :
    (0 ≤ (updateChildren env affected g cs acc st).1.earned
      ∧ (updateChildren env affected g cs acc st).1.earned ≤
        (updateChildren env affected g cs acc st).1.possible)
    ∧ (∀ k r, alookup (updateChildren env affected g cs acc st).2.aggs k =
        some r → 0 ≤ r.earned ∧ r.earned ≤ r.possible)
    ∧ (∀ r ∈ (updateChildren env affected g cs acc st).2.updated,
        r ∈ st.updated ∨ (0 ≤ r.earned ∧ r.earned ≤ r.possible)) := by
  cases cs with
  | nil => exact ⟨hacc, hrows, fun r hr => Or.inl hr⟩
  | cons c rest =>
    obtain ⟨hcb, hrows1, hupd1⟩ :=
      updateForBlock_bounds env affected g c st hcomp hrows
    cases hvc : updateForBlock env affected g c st with
    | mk s st1 =>
      rw [hvc] at hcb hrows1 hupd1
      dsimp only at hcb hrows1 hupd1
      have hrest := updateChildren_bounds env affected g rest
        ⟨acc.earned + s.earned, acc.possible + s.possible,
          max acc.lastModified s.lastModified⟩ st1
        ⟨add_nonneg hacc.1 hcb.1, add_le_add hacc.2 hcb.2⟩ hcomp hrows1
      have hrun : updateChildren env affected g (c :: rest) acc st =
          updateChildren env affected g rest
            ⟨acc.earned + s.earned, acc.possible + s.possible,
              max acc.lastModified s.lastModified⟩ st1 := by
        simp only [updateChildren]
        rw [hvc]
      rw [hrun]
      refine ⟨hrest.1, hrest.2.1, ?_⟩
      intro r hr
      rcases hrest.2.2 r hr with hmem | hb
      · exact hupd1 r hmem
      · exact Or.inr hb

end

/-- Helper: under `0 ≤ earned ≤ possible` the stored percent convention
agrees with `get_percent`, which succeeds and lands in `[0, 1]`. -/
theorem get_percent_of_bounds (e p q : ℚ) (h0 : 0 ≤ e) (hep : e ≤ p)
    (hq : q = if p = 0 then 1 else e / p) :
    0 ≤ q ∧ q ≤ 1 ∧ get_percent e p = Except.ok q := by
  have hnlt : ¬p < e := not_lt.mpr hep
  by_cases hp : p = 0
  · rw [hq, if_pos hp]
    rw [get_percent, if_neg hnlt, if_neg (by rw [hp]; exact lt_irrefl 0)]
    norm_num
  · have hppos : 0 < p := lt_of_le_of_ne (h0.trans hep) (Ne.symm hp)
    rw [hq, if_neg hp]
    rw [get_percent, if_neg hnlt, if_pos hppos]
    exact ⟨div_nonneg h0 hppos.le, (div_le_one hppos).mpr hep, rfl⟩

/-- C10 (amended): assuming every recorded completion value lies in
`[0, 1]` and every stored row satisfies `0 ≤ earned ≤ possible` (the
model's validators enforce `earned ≥ 0`; `earned ≤ possible` alone is not
enough — see the counterexample), every computed stat satisfies
`0 ≤ earned ≤ possible`; hence every staged row satisfies
`earned ≤ possible`, its percent lies in `[0, 1]`, and the write-time
`get_percent` rejection cannot fire on it. -/
theorem C10_bounds_invariant (env : Env) (affected : AffectedSet) (g : Bool)
    (t : BTree) (rows : List (ℕ × AggRow))
    (hcomp : ∀ k c, env.completions k = some c →
      0 ≤ c.completion ∧ c.completion ≤ 1)
    (hrows : ∀ k r, alookup rows k = some r →
      0 ≤ r.earned ∧ r.earned ≤ r.possible) :
    (0 ≤ (updateForBlock env affected g t ⟨rows, []⟩).1.earned
      ∧ (updateForBlock env affected g t ⟨rows, []⟩).1.earned ≤
        (updateForBlock env affected g t ⟨rows, []⟩).1.possible)
    ∧ (∀ r ∈ (updateForBlock env affected g t ⟨rows, []⟩).2.updated,
        0 ≤ r.earned ∧ r.earned ≤ r.possible ∧ 0 ≤ r.percent ∧ r.percent ≤ 1
        ∧ get_percent r.earned r.possible = Except.ok r.percent) := by
  obtain ⟨hstats, _, hupd⟩ :=
    updateForBlock_bounds env affected g t ⟨rows, []⟩ hcomp hrows
  refine ⟨hstats, ?_⟩
  intro r hr
  rcases hupd r hr with hmem | hb
  · exact absurd hmem (List.not_mem_nil r)
  · rcases updateForBlock_percent env affected g t ⟨rows, []⟩ r hr with
      hmem | hpct
    · exact absurd hmem (List.not_mem_nil r)
    · obtain ⟨h1, h2, h3⟩ := get_percent_of_bounds r.earned r.possible
        r.percent hb.1 hb.2 hpct
      exact ⟨hb.1, hb.2, h1, h2, h3⟩

/-- Witness for C10's amended statement on the convergence example. -/
theorem C10_witness :
    0 ≤ (updateForBlock envEx (AffectedSet.fin [1, 0]) false treeEx
        ⟨[], []⟩).1.earned
    ∧ (updateForBlock envEx (AffectedSet.fin [1, 0]) false treeEx
        ⟨[], []⟩).1.earned ≤
      (updateForBlock envEx (AffectedSet.fin [1, 0]) false treeEx
        ⟨[], []⟩).1.possible := by
  have hcomp : ∀ k c, envEx.completions k = some c →
      0 ≤ c.completion ∧ c.completion ≤ 1 := by
    intro k c h
    by_cases hk : k = 3
    · simp only [envEx, hk, if_pos rfl] at h
      cases Option.some_inj.mp h
      norm_num
    · simp [envEx, hk] at h
  have hrows : ∀ k r, alookup ([] : List (ℕ × AggRow)) k = some r →
      0 ≤ r.earned ∧ r.earned ≤ r.possible := by
    intro k r h
    simp [alookup] at h
  exact (C10_bounds_invariant envEx (AffectedSet.fin [1, 0]) false treeEx []
    hcomp hrows).1

/-- Counterexample to C10 as stated: a stored row with `earned ≤ possible`
but negative `earned` (`-2 ≤ -1`) is returned by the short-circuit, so the
evaluated stats violate `0 ≤ earned`. -/
theorem C10_counterexample :
    envC10.completions = (fun _ => none)
    ∧ rowsC10 = [(0, ⟨0, "course", -2, -1, 1, 0, 0⟩)]
    ∧ ((⟨0, "course", -2, -1, 1, 0, 0⟩ : AggRow).earned ≤
        (⟨0, "course", -2, -1, 1, 0, 0⟩ : AggRow).possible)
    ∧ ¬(0 ≤ (updateForBlock envC10 (AffectedSet.fin []) false
        (BTree.node 0 "course" []) ⟨rowsC10, []⟩).1.earned) := by
  refine ⟨rfl, rfl, by norm_num, ?_⟩
  have hrun : (updateForBlock envC10 (AffectedSet.fin []) false
      (BTree.node 0 "course" []) ⟨rowsC10, []⟩).1.earned = -2 := by
    norm_num +decide [updateForBlock, updateChildren, alookup, shortCircuit,
      aggregatorNeedsUpdate, needsUpdateForRow, refreshedRow, envC10,
      rowsC10, AffectedSet.mem, oldDatetime]
  rw [hrun]
  norm_num

/-- The force component of the collection fold is the OR of the items'
force flags. -/
theorem collectGroup_force_go (items : List StaleItem) :
    ∀ (b : GroupBlocks) (f : Bool),
    (items.foldl (fun st it => (staleStep st.1 it, st.2 || it.force)) (b, f)).2
      = (f || items.any fun it => it.force) := by
  induction items with
  | nil => intro b f; simp
  | cons it rest ih =>
    intro b f
    simp only [List.foldl_cons, List.any_cons]
    rw [ih]
    simp [Bool.or_assoc]

/-- Once a group's accumulator is a `BagOfHolding`, it stays one. -/
theorem collectGroup_bag_go (items : List StaleItem) :
    ∀ (f : Bool),
    (items.foldl (fun st it => (staleStep st.1 it, st.2 || it.force))
      (GroupBlocks.bag, f)).1 = GroupBlocks.bag := by
  induction items with
  | nil => intro f; rfl
  | cons it rest ih =>
    intro f
    simp only [List.foldl_cons]
    have hstep : staleStep GroupBlocks.bag it = GroupBlocks.bag := by
      rw [staleStep]
      cases hbk : it.blockKey <;> simp [hbk, addKeyToBlocks]
    rw [hstep]
    exact ih _

/-- A null block key anywhere in the group turns the accumulator into a
`BagOfHolding`. -/
theorem collectGroup_null_go (items : List StaleItem) :
    ∀ (b : GroupBlocks) (f : Bool), (∃ it ∈ items, it.blockKey = none) →
    (items.foldl (fun st it => (staleStep st.1 it, st.2 || it.force))
      (b, f)).1 = GroupBlocks.bag := by
  induction items with
  | nil =>
    rintro b f ⟨it, hit, _⟩
    cases hit
  | cons it rest ih =>
    rintro b f ⟨it', hit', hnull⟩
    simp only [List.foldl_cons]
    rcases List.mem_cons.mp hit' with rfl | hmem
    · have hstep : staleStep b it' = GroupBlocks.bag := by
        rw [staleStep, if_pos hnull, hnull]
        rfl
      rw [hstep]
      exact collectGroup_bag_go rest _
    · exact ih _ _ ⟨it', hmem, hnull⟩

/-- The union fold never shrinks the key set. -/
theorem unionFold_mono (items : List StaleItem) :
    ∀ (s : List ℕ),
    s.length ≤ (items.foldl (fun u it => unionStep u it.blockKey) s).length := by
  induction items with
  | nil => intro s; exact le_refl _
  | cons it rest ih =>
    intro s
    refine le_trans ?_ (ih (unionStep s it.blockKey))
    cases hbk : it.blockKey with
    | none => simp [unionStep]
    | some k =>
      simp only [unionStep]
      by_cases hk : k ∈ s
      · rw [List.insert_of_mem hk]
      · rw [List.insert_of_not_mem hk]
        exact Nat.le_succ _

/-- Key-set invariant of the collection fold: starting from at most 17
keys, the accumulator tracks the union exactly while the union stays at or
under 17 keys, and is pinned at 17 keys once the union exceeds that. -/
theorem collect_keys_go (items : List StaleItem) :
    ∀ (s : List ℕ) (f : Bool), (∀ it ∈ items, it.blockKey ≠ none) →
    s.length ≤ MAX_KEYS_PER_TASK + 1 →
    ∃ s', (items.foldl (fun st it => (staleStep st.1 it, st.2 || it.force))
        (GroupBlocks.keys s, f)).1 = GroupBlocks.keys s'
      ∧ s'.length ≤ MAX_KEYS_PER_TASK + 1
      ∧ ((items.foldl (fun u it => unionStep u it.blockKey) s).length ≤
            MAX_KEYS_PER_TASK + 1 →
          s' = items.foldl (fun u it => unionStep u it.blockKey) s)
      ∧ (MAX_KEYS_PER_TASK + 1 <
            (items.foldl (fun u it => unionStep u it.blockKey) s).length →
          s'.length = MAX_KEYS_PER_TASK + 1) := by
  induction items with
  | nil =>
    intro s f _ hlen
    exact ⟨s, rfl, hlen, fun _ => rfl, fun h => absurd h (not_lt.mpr hlen)⟩
  | cons it rest ih =>
    intro s f hnn hlen
    obtain ⟨k, hk⟩ : ∃ k, it.blockKey = some k := by
      cases hbk : it.blockKey with
      | none => exact absurd hbk (hnn it (List.mem_cons_self it rest))
      | some k => exact ⟨k, rfl⟩
    have hstep : staleStep (GroupBlocks.keys s) it =
        (if s.length ≤ MAX_KEYS_PER_TASK then GroupBlocks.keys (s.insert k)
         else GroupBlocks.keys s) := by
      rw [staleStep, if_neg (by rw [hk]; exact fun h => by cases h), hk]
      rfl
    simp only [List.foldl_cons, hstep, unionStep, hk]
    by_cases hsmall : s.length ≤ MAX_KEYS_PER_TASK
    · rw [if_pos hsmall]
      have hlen' : (s.insert k).length ≤ MAX_KEYS_PER_TASK + 1 := by
        by_cases hkmem : k ∈ s
        · rw [List.insert_of_mem hkmem]
          exact hlen
        · rw [List.insert_of_not_mem hkmem]
          simpa using Nat.succ_le_succ hsmall
      exact ih (s.insert k) (f || it.force)
        (fun it' h' => hnn it' (List.mem_cons_of_mem it h')) hlen'
    · rw [if_neg hsmall]
      have hs17 : s.length = MAX_KEYS_PER_TASK + 1 :=
        le_antisymm hlen (Nat.succ_le_of_lt (not_le.mp hsmall))
      obtain ⟨s', h1, h2, h3, h4⟩ := ih s (f || it.force)
        (fun it' h' => hnn it' (List.mem_cons_of_mem it h')) hlen
      by_cases hkmem : k ∈ s
      · rw [List.insert_of_mem hkmem]
        exact ⟨s', h1, h2, h3, h4⟩
      · have hins : (s.insert k).length = MAX_KEYS_PER_TASK + 2 := by
          rw [List.insert_of_not_mem hkmem, List.length_cons, hs17]
        have hu18 : MAX_KEYS_PER_TASK + 1 <
            (rest.foldl (fun u it => unionStep u it.blockKey)
              (s.insert k)).length := by
          have hmono := unionFold_mono rest (s.insert k)
          omega
        have hs'17 : s'.length = MAX_KEYS_PER_TASK + 1 := by
          by_cases hur : (rest.foldl (fun u it => unionStep u it.blockKey)
              s).length ≤ MAX_KEYS_PER_TASK + 1
          · have hmono := unionFold_mono rest s
            rw [h3 hur]
            omega
          · exact h4 (not_le.mp hur)
        exact ⟨s', h1, h2, fun habs => absurd habs (not_le.mpr hu18),
          fun _ => hs'17⟩

/-- C8: for one (username, course) group in a batch run, a null block key
or a union of more than 16 keys makes the dispatched changed-block list
empty (recompute everything); otherwise the dispatched list is exactly the
union of the group's keys; the dispatched force flag is the OR of the
items' force flags. -/
theorem C8_batch_grouping (items : List StaleItem) :
    ((∃ it ∈ items, it.blockKey = none) → (perGroup items).1 = [])
    ∧ (MAX_KEYS_PER_TASK < (groupUnion items).length → (perGroup items).1 = [])
    ∧ ((∀ it ∈ items, it.blockKey ≠ none) →
        (groupUnion items).length ≤ MAX_KEYS_PER_TASK →
        (perGroup items).1 = groupUnion items)
    ∧ ((perGroup items).2 = true ↔ ∃ it ∈ items, it.force = true) := by
  refine ⟨?_, ?_, ?_, ?_⟩
  · intro hnull
    have hbag := collectGroup_null_go items (GroupBlocks.keys []) false hnull
    simp only [perGroup, collectGroup, hbag, dispatchedBlocks]
  · intro hbig
    by_cases hnull : ∃ it ∈ items, it.blockKey = none
    · have hbag := collectGroup_null_go items (GroupBlocks.keys []) false hnull
      simp only [perGroup, collectGroup, hbag, dispatchedBlocks]
    · push_neg at hnull
      obtain ⟨s', h1, h2, h3, h4⟩ := collect_keys_go items [] false hnull
        (by simp [MAX_KEYS_PER_TASK])
      have hlen : MAX_KEYS_PER_TASK < s'.length := by
        by_cases hur : (groupUnion items).length ≤ MAX_KEYS_PER_TASK + 1
        · simp only [groupUnion] at hbig
          rw [h3 (by simpa [groupUnion] using hur)]
          exact hbig
        · rw [h4 (not_le.mp hur)]
          exact Nat.lt_succ_self _
      simp only [perGroup, collectGroup, h1, dispatchedBlocks, if_pos hlen]
  · intro hnn hsmall
    obtain ⟨s', h1, h2, h3, h4⟩ := collect_keys_go items [] false hnn
      (by simp [MAX_KEYS_PER_TASK])
    have hs' : s' = groupUnion items := h3 (by
      simp only [groupUnion] at hsmall
      omega)
    simp only [perGroup, collectGroup, h1, dispatchedBlocks]
    rw [if_neg (by rw [hs']; omega)]
    exact hs'
  · rw [show (perGroup items).2 =
        (items.foldl (fun st it => (staleStep st.1 it, st.2 || it.force))
          (GroupBlocks.keys [], false)).2 from rfl,
      collectGroup_force_go items (GroupBlocks.keys []) false]
    simp [List.any_eq_true]

/-- Witness for C8: a group with two distinct keys and one forced item
dispatches the union of its keys with force set; adding a null-key item
empties the dispatched list. -/
theorem C8_witness :
    (∀ it ∈ [StaleItem.mk (some 4) true, StaleItem.mk (some 9) false],
      it.blockKey ≠ none)
    ∧ (groupUnion [StaleItem.mk (some 4) true,
        StaleItem.mk (some 9) false]).length ≤ MAX_KEYS_PER_TASK
    ∧ (perGroup [StaleItem.mk (some 4) true, StaleItem.mk (some 9) false]).1 =
        groupUnion [StaleItem.mk (some 4) true, StaleItem.mk (some 9) false]
    ∧ (perGroup [StaleItem.mk (some 4) true,
        StaleItem.mk (some 9) false]).2 = true
    ∧ (perGroup [StaleItem.mk (some 4) true, StaleItem.mk none false]).1 = [] := by
  refine ⟨by decide, by decide, ?_, ?_, ?_⟩
  · exact (C8_batch_grouping _).2.2.1 (by decide) (by decide)
  · exact ((C8_batch_grouping _).2.2.2).mpr
      ⟨StaleItem.mk (some 4) true, by decide, rfl⟩
  · exact (C8_batch_grouping _).1
      ⟨StaleItem.mk none false, by decide, rfl⟩

/-- C5: an evaluated registered aggregator (here: the root, in the
affected set) is staged iff there is no existing row, or force is set, or
the existing row's `last_modified` is older than the newly computed one;
consequently an immediate re-run of the same invocation with `force=false`
stages no rows at all and leaves the row map untouched. -/
theorem C5_staging_condition_idempotence (env : Env)
    (cb : List (ℕ × CourseBlocksEntry)) (changed : List ℕ) (g : Bool)
    (rows : List (ℕ × AggRow)) (k : ℕ) (ty : String) (cs : List BTree)
    (hnd : (BTree.node k ty cs).keys.Nodup) (hwf : RowsWF rows) :
    (env.mode ty = CMode.aggregator → env.registered ty = true →
      (getAffectedAggregators cb changed).mem k = true →
      ((∃ r ∈ (calculateUpdatedAggregators env cb (BTree.node k ty cs) rows
          changed g).2.updated, r.blockKey = k)
        ↔ (alookup rows k = none ∨ g = true ∨
          ∃ agg, alookup rows k = some agg ∧ agg.lastModified <
            (childrenStats env (getAffectedAggregators cb changed) rows
              cs).lastModified)))
    ∧ (calculateUpdatedAggregators env cb (BTree.node k ty cs)
        (calculateUpdatedAggregators env cb (BTree.node k ty cs) rows changed
          g).2.aggs changed false).2.updated = []
    ∧ (calculateUpdatedAggregators env cb (BTree.node k ty cs)
        (calculateUpdatedAggregators env cb (BTree.node k ty cs) rows changed
          g).2.aggs changed false).2.aggs
      = (calculateUpdatedAggregators env cb (BTree.node k ty cs) rows changed
          g).2.aggs := by
  have hpart2 : calculateUpdatedAggregators env cb (BTree.node k ty cs)
      (calculateUpdatedAggregators env cb (BTree.node k ty cs) rows changed
        g).2.aggs changed false
      = (statsOf env (getAffectedAggregators cb changed)
          (calculateUpdatedAggregators env cb (BTree.node k ty cs) rows
            changed g).2.aggs (BTree.node k ty cs),
        ⟨(calculateUpdatedAggregators env cb (BTree.node k ty cs) rows changed
          g).2.aggs, []⟩) := by
    have hcons := (updateForBlock_stats env (getAffectedAggregators cb changed)
      g rows (BTree.node k ty cs) ⟨rows, []⟩ hnd (fun j _ => rfl)).2.1
    exact updateForBlock_consistent env (getAffectedAggregators cb changed)
      (calculateUpdatedAggregators env cb (BTree.node k ty cs) rows changed
        g).2.aggs (BTree.node k ty cs) [] hcons
  refine ⟨?_, by rw [hpart2], by rw [hpart2]⟩
  intro hma hreg hmem
  have hndk : k ∉ keysList cs :=
    (List.nodup_cons.mp (by simpa [BTree.keys] using hnd)).1
  have hndcs : (keysList cs).Nodup :=
    (List.nodup_cons.mp (by simpa [BTree.keys] using hnd)).2
  have hsc : shortCircuit ((getAffectedAggregators cb changed).mem k)
      (alookup (⟨rows, []⟩ : UState).aggs k) = none := by
    rw [hmem]
    exact shortCircuit_true _
  obtain ⟨⟨new, hupd, hprops⟩, hwf1⟩ := updateChildren_updated env
    (getAffectedAggregators cb changed) g cs ⟨0, 0, oldDatetime⟩ ⟨rows, []⟩ hwf
  obtain ⟨IH1, _, _⟩ := updateChildren_stats env
    (getAffectedAggregators cb changed) g rows cs ⟨0, 0, oldDatetime⟩
    ⟨rows, []⟩ hndcs (fun j _ => rfl)
  have hfr := updateChildren_frame env (getAffectedAggregators cb changed) g
    cs ⟨0, 0, oldDatetime⟩ ⟨rows, []⟩ k hndk
  cases hu : updateChildren env (getAffectedAggregators cb changed) g cs
      ⟨0, 0, oldDatetime⟩ ⟨rows, []⟩ with
  | mk total st1 =>
    rw [hu] at hupd hwf1 IH1 hfr
    dsimp only at hupd hwf1 IH1 hfr
    have htotlm : total.lastModified =
        (childrenStats env (getAffectedAggregators cb changed) rows
          cs).lastModified := by
      rw [IH1]
      simp [oldDatetime]
    simp only [List.nil_append] at hupd
    cases hneeds : aggregatorNeedsUpdate env st1.aggs k ty total.lastModified
        g with
    | true =>
      have hrun := updateForBlock_agg_staged env
        (getAffectedAggregators cb changed) g k ty cs ⟨rows, []⟩ (total, st1)
        hma hu hsc hneeds
      rw [aggregatorNeedsUpdate, if_pos hreg, hfr] at hneeds
      refine iff_of_true ?_ ?_
      · refine ⟨refreshedRow k ty total
          (if total.possible = 0 then 1 else total.earned / total.possible)
          env.now (alookup st1.aggs k), ?_, ?_⟩
        · rw [show calculateUpdatedAggregators env cb (BTree.node k ty cs)
              rows changed g = updateForBlock env
                (getAffectedAggregators cb changed) g (BTree.node k ty cs)
                ⟨rows, []⟩ from rfl, hrun]
          exact List.mem_append_right _ (List.mem_singleton.mpr rfl)
        · exact refreshedRow_blockKey k ty total _ env.now _
            (fun old ho => hwf1 k old ho)
      · cases halk : alookup rows k with
        | none => exact Or.inl rfl
        | some agg =>
          rw [halk] at hneeds
          simp only [needsUpdateForRow, Bool.or_eq_true,
            decide_eq_true_eq] at hneeds
          rcases hneeds with hg | hlt
          · exact Or.inr (Or.inl hg)
          · exact Or.inr (Or.inr ⟨agg, rfl, htotlm ▸ hlt⟩)
    | false =>
      have hrun := updateForBlock_agg_unstaged env
        (getAffectedAggregators cb changed) g k ty cs ⟨rows, []⟩ (total, st1)
        hma hu hneeds hsc
      rw [aggregatorNeedsUpdate, if_pos hreg, hfr] at hneeds
      refine iff_of_false ?_ ?_
      · rintro ⟨r, hr, hrk⟩
        rw [show calculateUpdatedAggregators env cb (BTree.node k ty cs) rows
            changed g = updateForBlock env (getAffectedAggregators cb changed)
              g (BTree.node k ty cs) ⟨rows, []⟩ from rfl, hrun] at hr
        dsimp only at hr
        rw [hupd] at hr
        obtain ⟨⟨ty', hty', _⟩, _⟩ := hprops r hr
        rw [hrk] at hty'
        refine hndk ?_
        rw [keysList_eq_keyTypesList_map]
        exact List.mem_map.mpr ⟨(k, ty'), hty', rfl⟩
      · rintro (halk | hg | ⟨agg, halk, hlt⟩)
        · rw [halk] at hneeds
          simp [needsUpdateForRow] at hneeds
        · rw [hg] at hneeds
          cases hbk : alookup rows k with
          | none =>
            rw [hbk] at hneeds
            simp [needsUpdateForRow] at hneeds
          | some agg =>
            rw [hbk] at hneeds
            simp [needsUpdateForRow] at hneeds
        · rw [halk] at hneeds
          simp only [needsUpdateForRow, Bool.or_eq_false_iff,
            decide_eq_false_iff_not] at hneeds
          exact hneeds.2 (htotlm.symm ▸ hlt)

/-- Witness for C5: re-running the convergence example immediately after a
successful run stages nothing and leaves the rows unchanged; on the first
run the root course block (no existing row) is staged. -/
theorem C5_witness :
    (calculateUpdatedAggregators envEx cbEx treeEx
      (calculateUpdatedAggregators envEx cbEx treeEx [] [3]
        false).2.aggs [3] false).2.updated = []
    ∧ (∃ r ∈ (calculateUpdatedAggregators envEx cbEx treeEx [] [3]
        false).2.updated, r.blockKey = 0) := by
  have hwf : RowsWF ([] : List (ℕ × AggRow)) := by
    intro k r h
    simp [alookup] at h
  refine ⟨(C5_staging_condition_idempotence envEx cbEx [3] false [] 0 "course"
    [BTree.node 1 "chapter" [BTree.node 3 "html" [], BTree.node 4 "html" []],
     BTree.node 2 "chapter" [BTree.node 5 "html" [], BTree.node 6 "html" []]]
    (by decide) hwf).2.1, ?_⟩
  exact ((C5_staging_condition_idempotence envEx cbEx [3] false [] 0 "course"
    [BTree.node 1 "chapter" [BTree.node 3 "html" [], BTree.node 4 "html" []],
     BTree.node 2 "chapter" [BTree.node 5 "html" [], BTree.node 6 "html" []]]
    (by decide) hwf).1 (by decide) (by decide) (by decide)).mpr
    (Or.inl (by decide))

end CompletionAggregator
